import Mathlib

/-! Chat interface (`static/js/chat.js`): response formatter and send flow.

A shallow embedding of the browser script.  JavaScript strings are sequences of
UTF-16 code units, so a string is a `List Nat` of code units; the regular
expressions of the script carry no `u` flag and therefore work on code units.
-/

namespace Chat

/-! ## Strings -/

/-- A JavaScript string: its UTF-16 code units. -/
abbrev JSString := List Nat

/-- The UTF-16 code units of one Unicode scalar value. -/
def encodeChar (c : Char) : List Nat :=
  if c.toNat < 0x10000 then [c.toNat]
  else [0xD800 + (c.toNat - 0x10000) / 0x400, 0xDC00 + (c.toNat - 0x10000) % 0x400]

/-- The UTF-16 code units of a list of scalar values. -/
def encodeChars : List Char → List Nat
  | [] => []
  | c :: cs => encodeChar c ++ encodeChars cs

/-- The JavaScript string written by a source literal. -/
def utf16 (s : String) : JSString := encodeChars s.toList

/-- ECMAScript `LineTerminator`: LF, CR, LS, PS. -/
def isLineTerminator (c : Nat) : Bool :=
  c == 0x0A || c == 0x0D || c == 0x2028 || c == 0x2029

/-- The class `\s` (and the set `String.prototype.trim` strips): ECMAScript
`WhiteSpace` together with `LineTerminator`. -/
def isSpace (c : Nat) : Bool :=
  c == 0x09 || c == 0x0A || c == 0x0B || c == 0x0C || c == 0x0D || c == 0x20 ||
  c == 0xA0 || c == 0x1680 || (0x2000 ≤ c && c ≤ 0x200A) ||
  c == 0x2028 || c == 0x2029 || c == 0x202F || c == 0x205F || c == 0x3000 || c == 0xFEFF

/-! ## Regular expressions

The matcher follows the ECMAScript semantics of a pattern: a matcher takes the
input at the current position and a continuation for the rest of the pattern,
and greedy quantifiers try the longer match first, falling back on failure of
the continuation. -/

/-- An atom matching one code unit. -/
inductive Cls where
  /-- A literal code unit. -/
  | unit (u : Nat)
  /-- The class `\s`. -/
  | space
  /-- The atom `.` without the `s` flag: anything but a line terminator. -/
  | dot
  deriving DecidableEq, Repr

/-- Whether the atom matches the code unit. -/
def Cls.test : Cls → Nat → Bool
  | .unit u, c => c == u
  | .space, c => isSpace c
  | .dot, c => !isLineTerminator c

/-- The patterns used by the script. -/
inductive Re where
  /-- A sequence of literal code units. -/
  | lit (us : List Nat)
  /-- One atom. -/
  | one (k : Cls)
  /-- A greedy `k*`. -/
  | star (k : Cls)
  /-- A greedy `k+`. -/
  | plus (k : Cls)
  /-- The assertion `$` under the `m` flag. -/
  | eol
  /-- Concatenation. -/
  | cat (a b : Re)
  /-- Ordered alternation `(?:a|b)`. -/
  | alt (a b : Re)
  /-- A greedy `(?:a)?`. -/
  | opt (a : Re)
  deriving DecidableEq, Repr

/-- Strip the literal `us` from the front of the input. -/
def stripLit : List Nat → List Nat → Option (List Nat)
  | [], s => some s
  | _ :: _, [] => none
  | u :: us, c :: cs => if c = u then stripLit us cs else none

/-- Greedy repetition of an atom: consume one more unit when possible and
fall back to stopping here when the rest of the pattern fails. -/
def starRun {α : Type} (p : Nat → Bool) (k : List Nat → Option α) : List Nat → Option α
  | [] => k []
  | c :: cs =>
    if p c then
      match starRun p k cs with
      | some r => some r
      | none => k (c :: cs)
    else k (c :: cs)

/-- Whether `$` (with the `m` flag) holds at the current position. -/
def atLineEnd : List Nat → Bool
  | [] => true
  | c :: _ => isLineTerminator c

/-- Run a pattern on the input with the continuation `k` for what follows. -/
def Re.run {α : Type} : Re → (List Nat → Option α) → List Nat → Option α
  | .lit us, k, s =>
    match stripLit us s with
    | some rest => k rest
    | none => none
  | .one _, _, [] => none
  | .one c, k, x :: xs => if c.test x then k xs else none
  | .star c, k, s => starRun c.test k s
  | .plus _, _, [] => none
  | .plus c, k, x :: xs => if c.test x then starRun c.test k xs else none
  | .eol, k, s => if atLineEnd s then k s else none
  | .cat a b, k, s => a.run (b.run k) s
  | .alt a b, k, s =>
    match a.run k s with
    | some r => some r
    | none => b.run k s
  | .opt a, k, s =>
    match a.run k s with
    | some r => some r
    | none => k s

/-- Match the pattern at the start of the input: the input left after the match. -/
def Re.exec (r : Re) (s : List Nat) : Option (List Nat) := r.run some s

/-- `String.prototype.replace` with a global pattern: scan left to right, replace
each match by `f` of the matched text and resume after it; an empty match is
replaced and the scan advances by one unit.  The first argument counts the
units of the current match still to be skipped. -/
def replaceFrom (r : Re) (f : List Nat → List Nat) : Nat → List Nat → List Nat
  | 0, [] =>
    match r.exec [] with
    | some _ => f []
    | none => []
  | _ + 1, [] => []
  | k + 1, _ :: cs => replaceFrom r f k cs
  | 0, c :: cs =>
    match r.exec (c :: cs) with
    | none => c :: replaceFrom r f 0 cs
    | some rest =>
      let n := (c :: cs).length - rest.length
      if n = 0 then f [] ++ c :: replaceFrom r f 0 cs
      else f ((c :: cs).take n) ++ replaceFrom r f (n - 1) cs

/-- The replacement argument of `replace`. -/
inductive Repl where
  /-- A function `match => pre + match + post`. -/
  | wrap (pre post : List Nat)
  /-- A replacement string (free of `$`). -/
  | const (out : List Nat)
  deriving DecidableEq, Repr

/-- The text substituted for a match. -/
def Repl.apply : Repl → List Nat → List Nat
  | .wrap pre post, m => pre ++ m ++ post
  | .const out, _ => out

/-- One `text.replace(pattern, replacement)` with a global pattern whose source
is the literal `lead` followed by `tail`. -/
structure Rule where
  /-- The literal units the pattern starts with. -/
  lead : List Nat
  /-- The rest of the pattern. -/
  tail : Re
  /-- The replacement. -/
  repl : Repl
  deriving DecidableEq, Repr

/-- The pattern of a rule. -/
def Rule.pat (r : Rule) : Re := .cat (.lit r.lead) r.tail

/-- The call `text.replace(pattern, replacement)`. -/
def Rule.replace (r : Rule) (text : List Nat) : List Nat :=
  replaceFrom r.pat r.repl.apply 0 text

/-! ## `formatResponse` -/

/-- The rule `.replace(/&/g, '&amp;')`. -/
def ampRule : Rule := ⟨utf16 "&", .lit [], .const (utf16 "&amp;")⟩
/-- The rule `.replace(/</g, '&lt;')`. -/
def ltRule : Rule := ⟨utf16 "<", .lit [], .const (utf16 "&lt;")⟩
/-- The rule `.replace(/>/g, '&gt;')`. -/
def gtRule : Rule := ⟨utf16 ">", .lit [], .const (utf16 "&gt;")⟩

/-- The divider element substituted for a separator. -/
def hrTag : List Nat :=
  utf16 "<hr style=\"border:none;border-top:1px solid rgba(201,168,76,0.2);margin:10px 0;\">"

/-- The separator rule `/────+/g`. -/
def sepRule : Rule := ⟨utf16 "───", .plus (.unit 0x2500), .const hrTag⟩

/-- The opening tag of a header in the given colour. -/
def strongOpen (color : String) : List Nat :=
  utf16 "<strong style=\"color:" ++ utf16 color ++
    utf16 ";font-size:12.5px;letter-spacing:0.5px;\">"

/-- The closing tag of a header. -/
def strongClose : List Nat := utf16 "</strong>"

/-- A header rule: the emoji, `\s+`, the rest of the pattern, and the colour. -/
def headerRule (emoji : String) (rest : Re) (color : String) : Rule :=
  ⟨utf16 emoji, .cat (.plus .space) rest, .wrap (strongOpen color) strongClose⟩

/-- The array `headers` of `formatResponse`, in source order. -/
def headers : List Rule :=
  [ headerRule "📋" (.lit (utf16 "SITUATION UNDERSTOOD")) "#c9a84c",
    headerRule "⚖️" (.lit (utf16 "APPLICABLE LAW")) "#8b949e",
    headerRule "💡" (.cat (.lit (utf16 "WHAT THIS MEANS")) (.opt (.lit (utf16 " FOR YOU")))) "#58a6ff",
    headerRule "✅" (.lit (utf16 "YOUR NEXT STEPS")) "#3fb950",
    headerRule "📖" (.lit (utf16 "LEGAL DETAILS")) "#d2a8ff",
    headerRule "🏛️" (.cat (.lit (utf16 "WHERE TO "))
      (.alt (.lit (utf16 "FILE COMPLAINT")) (.lit (utf16 "COMPLAIN")))) "#ffa657" ]

/-- A severity rule `/E\s+(?:L SEVERITY|SEVERITY:\s*L)/g` with its badge. -/
def severityRule (emoji label badge : String) : Rule :=
  ⟨utf16 emoji,
   .cat (.plus .space)
     (.alt (.lit (utf16 label ++ utf16 " SEVERITY"))
       (.cat (.lit (utf16 "SEVERITY:")) (.cat (.star .space) (.lit (utf16 label))))),
   .const (utf16 badge)⟩

/-- The three severity replacements, in source order. -/
def severities : List Rule :=
  [ severityRule "🔴" "HIGH"
      "<span style=\"color:#f85149;font-weight:600;background:rgba(248,81,73,0.1);padding:2px 8px;border-radius:12px;\">🔴 HIGH</span>",
    severityRule "🟠" "MEDIUM"
      "<span style=\"color:#e3b341;font-weight:600;background:rgba(227,179,65,0.1);padding:2px 8px;border-radius:12px;\">🟠 MEDIUM</span>",
    severityRule "🟡" "LOW"
      "<span style=\"color:#3fb950;font-weight:600;background:rgba(63,185,80,0.1);padding:2px 8px;border-radius:12px;\">🟡 LOW</span>" ]

/-- The opening tag put before a disclaimer line. -/
def disclaimerOpen : List Nat :=
  utf16 "<span style=\"color:#4a5568;font-size:11.5px;font-style:italic;\">"

/-- The closing tag `</span>`. -/
def spanClose : List Nat := utf16 "</span>"

/-- The disclaimer rule `/⚖️\s+Disclaimer:.*$/gm`. -/
def disclaimerRule : Rule :=
  ⟨utf16 "⚖️",
   .cat (.plus .space) (.cat (.lit (utf16 "Disclaimer:")) (.cat (.star .dot) .eol)),
   .wrap disclaimerOpen spanClose⟩

/-- Apply the rules one after the other, as successive `text = text.replace(...)`. -/
def applyRules (rules : List Rule) (text : List Nat) : List Nat :=
  rules.foldl (fun t r => r.replace t) text

/-- The three escaping replacements at the head of `formatResponse`. -/
def escapeStep (text : List Nat) : List Nat :=
  gtRule.replace (ltRule.replace (ampRule.replace text))

/-- The function `formatResponse(text)`. -/
def formatResponse (text : JSString) : JSString :=
  let text := escapeStep text
  let text := sepRule.replace text
  let text := applyRules headers text
  let text := applyRules severities text
  disclaimerRule.replace text

/-! ## The page state and the send flow -/

/-- Who a transcript message is from. -/
inductive Sender where
  | user
  | bot
  deriving DecidableEq, Repr

/-- A child of the chat window: a rendered message with the markup of its
bubble, or the typing placeholder (`id="typingEl"`).  The time of day shown
under a message is read from the wall clock and is not part of the model. -/
inductive Entry where
  | message (sender : Sender) (content : JSString)
  | typing
  deriving DecidableEq, Repr

/-- A node an event can be targeted at: the overlay backdrop `#logoOverlay`
itself or some other node, such as the box inside it. -/
inductive Node where
  | logoOverlay
  | other (n : Nat)
  deriving DecidableEq, Repr

/-- The outcome of `fetch('/chat', ...)` followed by `res.json()`, by what the
`try` block of `sendMessage` does with it. -/
inductive Reply where
  /-- The promise returned by `fetch` rejects. -/
  | networkError
  /-- The promise returned by `res.json()` rejects. -/
  | undecodable
  /-- The body decodes to `null`: reading `data.response` throws. -/
  | noObject
  /-- The field `response` is missing or not a string: `text.replace` throws. -/
  | noString
  /-- The field `response` is the string `r`. -/
  | text (r : JSString)
  deriving DecidableEq, Repr

/-- The part of the document the script reads and writes. -/
structure State where
  /-- The page whose container and navigation link carry the class `active`. -/
  activePage : JSString
  /-- The value of `userInput`, as reading `userInput.value` returns it. -/
  input : JSString
  /-- The text of `charCount`. -/
  charCount : JSString
  /-- The property `sendBtn.disabled`. -/
  sendDisabled : Bool
  /-- The children of `chatWindow`, in document order. -/
  transcript : List Entry
  /-- The `message` fields of the `fetch` calls issued and not yet resolved. -/
  inflight : List JSString
  /-- The texts of the `sendQuick` timers set and not yet fired. -/
  timers : List JSString
  /-- Whether `#logoOverlay` carries the class `open`. -/
  overlayOpen : Bool
  /-- The value of `document.body.style.overflow`. -/
  bodyOverflow : JSString
  deriving DecidableEq, Repr

/-- The page as loaded: the chat page shown, nothing typed, nothing sent. -/
def State.init : State :=
  { activePage := utf16 "chat", input := [], charCount := utf16 "0 / 500",
    sendDisabled := false, transcript := [], inflight := [], timers := [],
    overlayOpen := false, bodyOverflow := [] }

/-- The method `String.prototype.trim`. -/
def trim (s : JSString) : JSString :=
  ((s.dropWhile isSpace).reverse.dropWhile isSpace).reverse

/-- The function `showPage(page)`, for a page whose container and link exist. -/
def showPage (page : JSString) (s : State) : State := { s with activePage := page }

/-- The expression `text.replace(/</g,'&lt;').replace(/>/g,'&gt;')` of the user
branch of `appendMessage`. -/
def userText (text : JSString) : JSString := gtRule.replace (ltRule.replace text)

/-- The variable `content` of `appendMessage`. -/
def messageContent (text : JSString) : Sender → JSString
  | .bot => utf16 "<pre style=\"white-space:pre-wrap;font-family:inherit;margin:0;\">" ++
      formatResponse text ++ utf16 "</pre>"
  | .user => utf16 "<p style=\"margin:0;\">" ++ userText text ++ utf16 "</p>"

/-- The function `appendMessage(text, sender)` for a string `text`. -/
def appendMessage (text : JSString) (sender : Sender) (s : State) : State :=
  { s with transcript := s.transcript ++ [.message sender (messageContent text sender)] }

/-- The function `showTyping()`. -/
def showTyping (s : State) : State := { s with transcript := s.transcript ++ [.typing] }

/-- The function `removeTyping()`: `getElementById` finds the first element with
the id in document order; nothing happens when there is none. -/
def removeTyping (s : State) : State := { s with transcript := s.transcript.erase .typing }

/-- The function `sendMessage()` up to the point where it awaits `fetch`. -/
def sendMessage (s : State) : State :=
  let message := trim s.input
  if message = [] then s
  else
    let s := { s with input := [], charCount := utf16 "0 / 500", sendDisabled := true }
    let s := appendMessage message .user s
    let s := showTyping s
    { s with inflight := s.inflight ++ [message] }

/-- The fixed message of the `catch` block. -/
def fallbackText : JSString := utf16 "Sorry, something went wrong. Please try again."

/-- The `try` block of `sendMessage` once the request has an outcome: the state
it ends in, or the state at the point where it throws. -/
def tryBlock : Reply → State → Except State State
  | .networkError, s => .error s
  | .undecodable, s => .error s
  | .noObject, s => .error (removeTyping s)
  | .noString, s => .error (removeTyping s)
  | .text r, s => .ok (appendMessage r .bot (removeTyping s))

/-- The rest of `sendMessage` after the await: `try`, `catch`, `finally`. -/
def settle (reply : Reply) (s : State) : State :=
  let s := match tryBlock reply s with
    | .ok s => s
    | .error s => appendMessage fallbackText .bot (removeTyping s)
  { s with sendDisabled := false }

/-- The function `sendQuick(text)`: show the chat page and set the timer. -/
def sendQuick (text : JSString) (s : State) : State :=
  let s := showPage (utf16 "chat") s
  { s with timers := s.timers ++ [text] }

/-- Newline normalisation from the left: a CR is written as LF, and an LF that
comes right after a CR is the second half of a CR LF pair and is dropped.
`afterCR` tells that the unit before was a CR. -/
def normalizeFrom : Bool → JSString → JSString
  | _, [] => []
  | afterCR, c :: cs =>
    if c = 0x0D then 0x0A :: normalizeFrom true cs
    else if c = 0x0A ∧ afterCR = true then normalizeFrom false cs
    else c :: normalizeFrom false cs

/-- Modelled from the spec: the markup that declares `userInput` is not part of
the script; the spec has Shift+Enter insert a newline into the field and the
script calls it a textarea.  Reading `value` of a textarea gives what was
stored with every CR LF pair and every other CR turned into LF. -/
def normalizeNewlines (v : JSString) : JSString := normalizeFrom false v

/-- The callback of the `sendQuick` timer: `userInput.value = text`, then
`sendMessage()`, which reads the value back. -/
def quickCallback (text : JSString) (s : State) : State :=
  sendMessage { s with input := normalizeNewlines text }

/-- The function `openLogoOverlay()`. -/
def openLogoOverlay (s : State) : State :=
  { s with overlayOpen := true, bodyOverflow := utf16 "hidden" }

/-- The function `closeLogoOverlay(e)`: `e` is absent or an event with a target. -/
def closeLogoOverlay (e : Option Node) (s : State) : State :=
  match e with
  | some target =>
    if target ≠ Node.logoOverlay then s
    else { s with overlayOpen := false, bodyOverflow := [] }
  | none => { s with overlayOpen := false, bodyOverflow := [] }

/-- The keys the listeners tell apart. -/
inductive Key where
  | enter
  | escape
  | other
  deriving DecidableEq, Repr

/-- The `keydown` listener of `userInput`. -/
def inputKeydown (key : Key) (shift : Bool) (s : State) : State :=
  if key = .enter ∧ shift = false then sendMessage s else s

/-- The `keydown` listener of `document`. -/
def documentKeydown (key : Key) (s : State) : State :=
  if key = .escape then closeLogoOverlay none s else s

/-- The `input` listener of `userInput`, after the field took the value `v`. -/
def inputChanged (v : JSString) (s : State) : State :=
  { s with input := v, charCount := utf16 (toString v.length) ++ utf16 " / 500" }

/-- Modelled from the spec: the page markup that binds the send button to
`sendMessage` is not part of the script; a click on the submit control starts a
submission, and a disabled control dispatches no click. -/
def clickSend (s : State) : State :=
  if s.sendDisabled then s else sendMessage s

/-- What can happen to the page. -/
inductive Event where
  /-- The user edits the input field, which then holds `v`. -/
  | input (v : JSString)
  /-- A click on the send button. -/
  | click
  /-- A key pressed in the input field (it bubbles to the document). -/
  | keydown (key : Key) (shift : Bool)
  /-- A call of `sendQuick(text)`. -/
  | quick (text : JSString)
  /-- The pending timer number `i` fires. -/
  | timer (i : Nat)
  /-- The request number `i` in flight resolves with the reply. -/
  | resolve (i : Nat) (reply : Reply)
  deriving DecidableEq, Repr

/-- One event. -/
def step (s : State) : Event → State
  | .input v => inputChanged v s
  | .click => clickSend s
  | .keydown key shift => documentKeydown key (inputKeydown key shift s)
  | .quick text => sendQuick text s
  | .timer i =>
    match s.timers.get? i with
    | some text => quickCallback text { s with timers := s.timers.eraseIdx i }
    | none => s
  | .resolve i reply =>
    match s.inflight.get? i with
    | some _ => settle reply { s with inflight := s.inflight.eraseIdx i }
    | none => s

/-- The state after a sequence of events. -/
def runEvents (s : State) (es : List Event) : State := es.foldl step s

/-! ## Notions the properties are stated with -/

/-- Whether the pattern can consume the code unit. -/
def Re.accepts : Re → Nat → Bool
  | .lit us, u => us.contains u
  | .one k, u => k.test u
  | .star k, u => k.test u
  | .plus k, u => k.test u
  | .eol, _ => false
  | .cat a b, u => a.accepts u || b.accepts u
  | .alt a b, u => a.accepts u || b.accepts u
  | .opt a, u => a.accepts u

/-- The first of the rules that matches at the start of the input, with the
input left after its match. -/
def firstMatch : List Rule → List Nat → Option (Rule × List Nat)
  | [], _ => none
  | r :: rs, s =>
    match r.pat.exec s with
    | some rest => some (r, rest)
    | none => firstMatch rs s

/-- One simultaneous pass: scan left to right; where one of the rules matches,
put its replacement for the matched text and resume after the match; copy every
other unit.  The first argument counts the units still to be skipped. -/
def replaceAny (rules : List Rule) : Nat → List Nat → List Nat
  | 0, [] =>
    match firstMatch rules [] with
    | some (r, _) => r.repl.apply []
    | none => []
  | _ + 1, [] => []
  | k + 1, _ :: cs => replaceAny rules k cs
  | 0, c :: cs =>
    match firstMatch rules (c :: cs) with
    | none => c :: replaceAny rules 0 cs
    | some (r, rest) =>
      let n := (c :: cs).length - rest.length
      if n = 0 then r.repl.apply [] ++ c :: replaceAny rules 0 cs
      else r.repl.apply ((c :: cs).take n) ++ replaceAny rules (n - 1) cs

/-- Every rule of the list starts with a literal unit. -/
def Led (rs : List Rule) : Prop := ∀ r ∈ rs, r.lead ≠ []

/-- Two literals differ at a position both have. -/
def clash : List Nat → List Nat → Bool
  | a :: as, b :: bs => a != b || clash as bs
  | _, _ => false

/-- The literal `p` starts at no position of `w`, whatever follows `w`. -/
def quiet (p : List Nat) : List Nat → Bool
  | [] => true
  | c :: cs => clash p (c :: cs) && quiet p cs

/-- Whether the unit can occur in a match of the rule after the first unit. -/
def Rule.inner (r : Rule) (u : Nat) : Bool := r.lead.tail.contains u || r.tail.accepts u

/-- Whether the pattern contains the assertion `$`. -/
def Re.hasEol : Re → Bool
  | .eol => true
  | .cat a b => a.hasEol || b.hasEol
  | .alt a b => a.hasEol || b.hasEol
  | .opt a => a.hasEol
  | _ => false

/-- The literal pieces a replacement puts into the output. -/
def Repl.parts : Repl → List (List Nat)
  | .wrap pre post => [pre, post]
  | .const out => [out]

/-- The first unit of what a replacement puts out. -/
def Repl.first : Repl → Option Nat
  | .wrap pre _ => pre.head?
  | .const out => out.head?

/-- The unit is none that a match of `m` contains after its first unit. -/
def outside (m : Rule) : Option Nat → Bool
  | some h => !m.inner h
  | none => false

/-- Replacing by `m` after replacing by `r` finds what it finds in the original text:
the two leads differ, `m` starts neither inside a match of `r` nor inside what `r`
puts out, and a match of `m` stops before a match of `r` and before what `r` puts out. -/
def after (m r : Rule) : Bool :=
  clash m.lead r.lead && outside r m.lead.head? && r.repl.parts.all (quiet m.lead) &&
  outside m r.lead.head? && outside m r.repl.first && !m.tail.hasEol

/-- Either rule may be applied first. -/
def compatible (a b : Rule) : Bool := after a b && after b a

/-- The input is at its end or at a unit no match of `m` goes on with. -/
def stops (m : Rule) : List Nat → Bool
  | [] => true
  | y :: _ => !m.inner y

/-- The nine header and severity rules, in source order. -/
def nineRules : List Rule := headers ++ severities

/-- The three HTML-sensitive units `&`, `<`, `>`. -/
def isSpecial (c : Nat) : Bool := c == 0x26 || c == 0x3C || c == 0x3E

/-- The three character references the escaping writes. -/
def entities : List (List Nat) := [utf16 "&amp;", utf16 "&lt;", utf16 "&gt;"]

/-- The opening tags of the three severity badges. -/
def badgeOpens : List (List Nat) :=
  [ utf16 "<span style=\"color:#f85149;font-weight:600;background:rgba(248,81,73,0.1);padding:2px 8px;border-radius:12px;\">",
    utf16 "<span style=\"color:#e3b341;font-weight:600;background:rgba(227,179,65,0.1);padding:2px 8px;border-radius:12px;\">",
    utf16 "<span style=\"color:#3fb950;font-weight:600;background:rgba(63,185,80,0.1);padding:2px 8px;border-radius:12px;\">" ]

/-- The tags the formatter itself writes. -/
def fixedTags : List (List Nat) :=
  [ hrTag, strongOpen "#c9a84c", strongOpen "#8b949e", strongOpen "#58a6ff",
    strongOpen "#3fb950", strongOpen "#d2a8ff", strongOpen "#ffa657", strongClose ] ++
  badgeOpens ++ [ disclaimerOpen, spanClose ]

/-- The pieces of markup allowed in the output. -/
def tokens : List (List Nat) := entities ++ fixedTags

/-- No raw markup: the text is a sequence of units other than `&`, `<`, `>`,
of character references `&amp;`, `&lt;`, `&gt;`, and of the formatter's tags. -/
inductive Safe : List Nat → Prop where
  | nil : Safe []
  | unit (c : Nat) (rest : List Nat) : isSpecial c = false → Safe rest → Safe (c :: rest)
  | token (t rest : List Nat) : t ∈ tokens → Safe rest → Safe (t ++ rest)

/-- A token starts with `&` or `<`. -/
def specialHead : List Nat → Bool
  | [] => false
  | h :: _ => isSpecial h

/-- Whether every alternative of the pattern ends with the assertion `$`. -/
def Re.endsEol : Re → Bool
  | .eol => true
  | .cat _ b => b.endsEol
  | .alt a b => a.endsEol && b.endsEol
  | _ => false

/-- The units a match of the rule consumes are none of `&`, `<`, `>`. -/
def plainRule (r : Rule) : Bool :=
  r.lead.all (fun u => !isSpecial u) &&
  !r.tail.accepts 0x26 && !r.tail.accepts 0x3C && !r.tail.accepts 0x3E

/-- What the replacement writes around or instead of a match is made of tokens
and plain units: a wrap in two tokens, a token, or a badge. -/
def outOk : Repl → Bool
  | .wrap pre post => tokens.contains pre && tokens.contains post
  | .const out =>
    tokens.contains out ||
    badgeOpens.any (fun o =>
      match stripLit o out with
      | some rest =>
        (rest.drop (rest.length - spanClose.length) == spanClose) &&
        (rest.take (rest.length - spanClose.length)).all (fun u => !isSpecial u)
      | none => false)

/-- No match of the rule starts inside a token. -/
def quietTokens (r : Rule) : Bool := tokens.all (quiet r.lead)

/-- A rule that keeps safe texts safe, as far as a check can tell. -/
def tame (r : Rule) : Bool :=
  !r.lead.isEmpty && quietTokens r && outOk r.repl && (plainRule r || r.tail.endsEol)

/-- What escaping makes of one unit. -/
def escapeUnit (c : Nat) : List Nat :=
  if c = 0x26 then utf16 "&amp;"
  else if c = 0x3C then utf16 "&lt;"
  else if c = 0x3E then utf16 "&gt;"
  else [c]

/-- HTML escaping, unit by unit: `&` becomes `&amp;`, `<` becomes `&lt;`, `>`
becomes `&gt;`, every other unit stays. -/
def escapeHtml : List Nat → List Nat
  | [] => []
  | c :: cs => escapeUnit c ++ escapeHtml cs

/-- Replace every unit `u` by `out`. -/
def substUnit (u : Nat) (out : List Nat) : List Nat → List Nat
  | [] => []
  | c :: cs => (if c = u then out else [c]) ++ substUnit u out cs

/-- The pattern consumes none of `&`, `<`, `>`. -/
def plainRe (p : Re) : Bool := !p.accepts 0x26 && !p.accepts 0x3C && !p.accepts 0x3E

/-- Whether the pattern matches a text exactly when it matches the escaped
text: it consumes none of `&`, `<`, `>` up to a final `.*$`, if any. -/
def Re.stable : Re → Bool
  | .cat a b => (a == .star .dot && b == .eol) || (plainRe a && b.stable)
  | p => plainRe p

/-- None of the rules matches anywhere in the text. -/
def noMatch (rules : List Rule) (text : List Nat) : Bool :=
  text.tails.all (fun t => rules.all (fun r => (r.pat.exec t).isNone))

/-- A rule is inert on escaped text in which the rule matches nowhere, as far
as a check can tell. -/
def inertOnEscaped (r : Rule) : Bool :=
  !r.lead.isEmpty && entities.all (quiet r.lead) && r.pat.stable

/-- Every pattern of the formatter, after the escaping. -/
def markupRules : List Rule := sepRule :: (headers ++ severities ++ [disclaimerRule])

/-- The unit `c`, standing between `pre` and `post`, is the first unit of one
of `&amp;`, `&lt;`, `&gt;` written out in the text. -/
def startsEntity (c : Nat) (post : List Nat) : Prop :=
  ∃ e ∈ entities, e <+: c :: post

/-- The unit `c`, standing between `pre` and `post`, is a unit of one of the
formatter's tags written out in the text around it. -/
def inTag (pre : List Nat) (c : Nat) (post : List Nat) : Prop :=
  ∃ t ∈ fixedTags, ∃ a b, t = a ++ c :: b ∧ a <:+ pre ∧ b <+: post

/-- No raw markup, place by place: every `&` starts a character reference and
every `<` and `>` is part of a tag of the formatter. -/
def NoRawMarkup (out : List Nat) : Prop :=
  ∀ pre c post, out = pre ++ c :: post → isSpecial c = true →
    (c = 0x26 ∧ startsEntity c post) ∨ (c ≠ 0x26 ∧ inTag pre c post)

/-- Every tag of the formatter opens with `<`, closes with `>` and has no
other `<`, `>` or `&` inside; the tags are the rule, the bold and the span
elements. -/
def tagShape (t : List Nat) : Bool :=
  t.head? == some 0x3C && t.getLast? == some 0x3E &&
    (t.tail.dropLast).all (fun u => !isSpecial u) &&
    ((utf16 "<hr ").isPrefixOf t || (utf16 "<strong ").isPrefixOf t || t == utf16 "</strong>" ||
      (utf16 "<span ").isPrefixOf t || t == utf16 "</span>")

/-- The rule matches at no position of the text. -/
def Nowhere (q : Rule) (s : List Nat) : Prop := ∀ t, t <:+ s → q.pat.exec t = none

/-- Replacing by `r` shows `q` nothing new: `q` has no `$`, it starts at no place
of what `r` puts out, and no match of `q` goes on into what `r` puts out. -/
def blind (q r : Rule) : Bool :=
  !r.lead.isEmpty && !q.tail.hasEol &&
    r.repl.parts.all (fun w => quiet q.lead w && outside q w.head?)

/-- The disclaimer pattern up to the colon, `/⚖️\s+Disclaimer:/`; the rest of
the pattern, `.*$`, matches wherever this much has matched. -/
def disclaimerHead : Rule :=
  ⟨utf16 "⚖️", .cat (.plus .space) (.lit (utf16 "Disclaimer:")), disclaimerRule.repl⟩

/-- The replacements of `formatResponse` before the disclaimer step, in source
order. -/
def earlierRules : List Rule := [ampRule, ltRule, gtRule, sepRule] ++ (headers ++ severities)

/-- The forms of a header that the patterns of `formatResponse` are written
for: the emoji, the label after the whitespace, and the colour of the header. -/
def headerForms : List (String × String × String) :=
  [ ("📋", "SITUATION UNDERSTOOD", "#c9a84c"),
    ("⚖️", "APPLICABLE LAW", "#8b949e"),
    ("💡", "WHAT THIS MEANS", "#58a6ff"),
    ("💡", "WHAT THIS MEANS FOR YOU", "#58a6ff"),
    ("✅", "YOUR NEXT STEPS", "#3fb950"),
    ("📖", "LEGAL DETAILS", "#d2a8ff"),
    ("🏛️", "WHERE TO FILE COMPLAINT", "#ffa657"),
    ("🏛️", "WHERE TO COMPLAIN", "#ffa657") ]

/-- The text with the disclaimer in front of a header whose whitespace is a
line break. -/
def disclaimerThenHeader : JSString := utf16 "⚖️ Disclaimer: 📋\nSITUATION UNDERSTOOD"

/-- The text of the disclaimer counterexample: a disclaimer line that ends in
the red circle, the words `HIGH SEVERITY` on the next line. -/
def disclaimerThenBadge : JSString := utf16 "⚖️ Disclaimer: 🔴\nHIGH SEVERITY"

/-- Two messages sent with the Enter key, the second before the first request
has an outcome. -/
def twoEnters : List Event :=
  [.input (utf16 "a"), .keydown .enter false, .input (utf16 "b"), .keydown .enter false]

/-! ## Theorems -/

/-! ### The matcher consumes what its pattern accepts -/

theorem stripLit_eq_some {us s r : List Nat} : stripLit us s = some r ↔ s = us ++ r := by
  induction us generalizing s with
  | nil => simp [stripLit, eq_comm]
  | cons u us ih =>
    cases s with
    | nil => simp [stripLit]
    | cons c cs =>
      simp only [stripLit]
      split
      · next h => subst h; simp [ih]
      · next h => simp [h]

theorem stripLit_append (us r : List Nat) : stripLit us (us ++ r) = some r :=
  stripLit_eq_some.mpr rfl

theorem starRun_consumed {α : Type} (p : Nat → Bool) (k : List Nat → Option α) (s : List Nat) (v : α)
    (h : starRun p k s = some v) :
    ∃ x rest, s = x ++ rest ∧ k rest = some v ∧ ∀ u ∈ x, p u = true := by
  induction s with
  | nil => exact ⟨[], [], rfl, by simpa [starRun] using h, by simp⟩
  | cons c cs ih =>
    simp only [starRun] at h
    split at h
    · next hp =>
      split at h
      · next r hr =>
        cases h
        obtain ⟨x, rest, hs, hk, hx⟩ := ih hr
        refine ⟨c :: x, rest, by simp [hs], hk, ?_⟩
        intro u hu
        rcases List.mem_cons.mp hu with rfl | hu
        · exact hp
        · exact hx u hu
      · exact ⟨[], c :: cs, rfl, h, by simp⟩
    · exact ⟨[], c :: cs, rfl, h, by simp⟩

theorem run_consumed {α : Type} (p : Re) (k : List Nat → Option α) (s : List Nat) (v : α)
    (h : p.run k s = some v) :
    ∃ x rest, s = x ++ rest ∧ k rest = some v ∧ ∀ u ∈ x, p.accepts u = true := by
  induction p generalizing k s v with
  | lit us =>
    simp only [Re.run] at h
    split at h
    · next rest hr =>
      refine ⟨us, rest, stripLit_eq_some.mp hr, h, ?_⟩
      intro u hu
      simpa [Re.accepts] using hu
    · cases h
  | one c =>
    cases s with
    | nil => simp [Re.run] at h
    | cons x xs =>
      simp only [Re.run] at h
      split at h
      · next hc => exact ⟨[x], xs, rfl, h, by simpa [Re.accepts] using hc⟩
      · cases h
  | star c =>
    simp only [Re.run] at h
    obtain ⟨x, rest, hs, hk, hx⟩ := starRun_consumed _ _ _ _ h
    exact ⟨x, rest, hs, hk, by simpa [Re.accepts] using hx⟩
  | plus c =>
    cases s with
    | nil => simp [Re.run] at h
    | cons x xs =>
      simp only [Re.run] at h
      split at h
      · next hc =>
        obtain ⟨y, rest, hs, hk, hy⟩ := starRun_consumed _ _ _ _ h
        refine ⟨x :: y, rest, by simp [hs], hk, ?_⟩
        intro u hu
        rcases List.mem_cons.mp hu with rfl | hu
        · simpa [Re.accepts] using hc
        · simpa [Re.accepts] using hy u hu
      · cases h
  | eol =>
    simp only [Re.run] at h
    split at h
    · exact ⟨[], s, rfl, h, by simp⟩
    · cases h
  | cat a b iha ihb =>
    simp only [Re.run] at h
    obtain ⟨x, r1, hs, hk, hx⟩ := iha _ _ _ h
    obtain ⟨y, r2, hs2, hk2, hy⟩ := ihb _ _ _ hk
    refine ⟨x ++ y, r2, by simp [hs, hs2], hk2, ?_⟩
    intro u hu
    rcases List.mem_append.mp hu with hu | hu
    · simp [Re.accepts, hx u hu]
    · simp [Re.accepts, hy u hu]
  | alt a b iha ihb =>
    simp only [Re.run] at h
    split at h
    · next r hr =>
      cases h
      obtain ⟨x, r1, hs, hk, hx⟩ := iha _ _ _ hr
      exact ⟨x, r1, hs, hk, fun u hu => by simp [Re.accepts, hx u hu]⟩
    · obtain ⟨x, r1, hs, hk, hx⟩ := ihb _ _ _ h
      exact ⟨x, r1, hs, hk, fun u hu => by simp [Re.accepts, hx u hu]⟩
  | opt a iha =>
    simp only [Re.run] at h
    split at h
    · next r hr =>
      cases h
      obtain ⟨x, r1, hs, hk, hx⟩ := iha _ _ _ hr
      exact ⟨x, r1, hs, hk, fun u hu => by simp [Re.accepts, hx u hu]⟩
    · exact ⟨[], s, rfl, h, by simp⟩

/-! ### One replacement as a scan of the text -/

theorem exec_pat {r : Rule} {s rest : List Nat} :
    r.pat.exec s = some rest ↔ ∃ s1, s = r.lead ++ s1 ∧ r.tail.run some s1 = some rest := by
  simp only [Re.exec, Rule.pat, Re.run]
  constructor
  · intro h
    split at h
    · next s1 hs1 => exact ⟨s1, stripLit_eq_some.mp hs1, h⟩
    · cases h
  · rintro ⟨s1, rfl, h⟩
    simp [stripLit_append, h]

/-- A match of a rule splits the input into the lead, a body the tail accepts
unit by unit, and the rest. -/
theorem exec_pat_split {r : Rule} {s rest : List Nat} (h : r.pat.exec s = some rest) :
    ∃ x, s = r.lead ++ x ++ rest ∧ ∀ u ∈ x, r.tail.accepts u = true := by
  obtain ⟨s1, hs, h1⟩ := exec_pat.mp h
  obtain ⟨x, rest1, hs1, hk, hx⟩ := run_consumed _ _ _ _ h1
  cases hk
  exact ⟨x, by simp [hs, hs1], hx⟩

theorem exec_pat_nil {r : Rule} (hl : r.lead ≠ []) : r.pat.exec [] = none := by
  cases h : r.pat.exec [] with
  | none => rfl
  | some rest =>
    obtain ⟨x, hs, _⟩ := exec_pat_split h
    have : r.lead = [] := by
      have := congrArg List.length hs
      simp at this
      exact List.length_eq_zero.mp (by omega)
    exact absurd this hl

theorem firstMatch_some {rs : List Rule} {s : List Nat} {r : Rule} {rest : List Nat}
    (h : firstMatch rs s = some (r, rest)) : r ∈ rs ∧ r.pat.exec s = some rest := by
  induction rs with
  | nil => simp [firstMatch] at h
  | cons a rs ih =>
    simp only [firstMatch] at h
    split at h
    · next rest1 h1 =>
      cases h
      exact ⟨List.mem_cons_self _ _, h1⟩
    · exact ⟨List.mem_cons_of_mem _ (ih h).1, (ih h).2⟩

theorem firstMatch_none {rs : List Rule} {s : List Nat} :
    firstMatch rs s = none ↔ ∀ r ∈ rs, r.pat.exec s = none := by
  induction rs with
  | nil => simp [firstMatch]
  | cons a rs ih =>
    simp only [firstMatch, List.mem_cons, forall_eq_or_imp]
    split
    · next rest h1 => simp [h1]
    · next h1 => simp [h1, ih]

theorem firstMatch_append (rs : List Rule) (m : Rule) (s : List Nat) :
    firstMatch (rs ++ [m]) s =
      match firstMatch rs s with
      | some x => some x
      | none => (m.pat.exec s).map (fun rest => (m, rest)) := by
  induction rs with
  | nil =>
    simp only [List.nil_append, firstMatch]
    cases m.pat.exec s <;> rfl
  | cons a rs ih =>
    simp only [List.cons_append, firstMatch]
    cases a.pat.exec s with
    | some rest => rfl
    | none => simpa using ih

theorem firstMatch_nil {rs : List Rule} (hl : Led rs) : firstMatch rs [] = none :=
  firstMatch_none.mpr (fun r hr => exec_pat_nil (hl r hr))

theorem replaceAny_nil {rs : List Rule} (hl : Led rs) (k : Nat) : replaceAny rs k [] = [] := by
  cases k with
  | zero => simp [replaceAny, firstMatch_nil hl]
  | succ k => simp [replaceAny]

theorem replaceAny_skip {rs : List Rule} (hl : Led rs) (k : Nat) (s : List Nat) :
    replaceAny rs k s = replaceAny rs 0 (s.drop k) := by
  induction k generalizing s with
  | zero => simp
  | succ k ih =>
    cases s with
    | nil => simp [replaceAny_nil hl]
    | cons c cs => simp only [replaceAny, List.drop_succ_cons]; exact ih cs

theorem replaceAny_nomatch {rs : List Rule} {c : Nat} {cs : List Nat}
    (h : firstMatch rs (c :: cs) = none) :
    replaceAny rs 0 (c :: cs) = c :: replaceAny rs 0 cs := by
  simp [replaceAny, h]

theorem replaceAny_cons (rs : List Rule) (c : Nat) (cs : List Nat) :
    replaceAny rs 0 (c :: cs) =
      match firstMatch rs (c :: cs) with
      | none => c :: replaceAny rs 0 cs
      | some (r, rest) =>
        if (c :: cs).length - rest.length = 0 then r.repl.apply [] ++ c :: replaceAny rs 0 cs
        else r.repl.apply ((c :: cs).take ((c :: cs).length - rest.length)) ++
          replaceAny rs ((c :: cs).length - rest.length - 1) cs := rfl

theorem replaceAny_match {rs : List Rule} (hl : Led rs) {r : Rule} {m rest : List Nat}
    (h : firstMatch rs (m ++ rest) = some (r, rest)) :
    replaceAny rs 0 (m ++ rest) = r.repl.apply m ++ replaceAny rs 0 rest := by
  have hr := firstMatch_some h
  obtain ⟨x, hs, _⟩ := exec_pat_split hr.2
  have hm : m = r.lead ++ x :=
    List.append_cancel_right (hs.trans (by simp) : m ++ rest = (r.lead ++ x) ++ rest)
  have hne : m ≠ [] := by
    rw [hm]; simp [hl r hr.1]
  cases m with
  | nil => exact absurd rfl hne
  | cons c cs =>
    have hlen : (c :: (cs ++ rest)).length - rest.length = cs.length + 1 := by
      simp; omega
    rw [List.cons_append] at h ⊢
    rw [replaceAny_cons, h]
    simp only [hlen, Nat.add_one_ne_zero, if_false, Nat.add_sub_cancel]
    rw [replaceAny_skip hl]
    simp [List.take_append_eq_append_take, List.drop_append_eq_append_drop]

theorem replaceFrom_eq_replaceAny (r : Rule) (k : Nat) (s : List Nat) :
    replaceFrom r.pat r.repl.apply k s = replaceAny [r] k s := by
  induction s generalizing k with
  | nil =>
    cases k with
    | zero =>
      simp only [replaceFrom, replaceAny, firstMatch]
      cases r.pat.exec [] <;> rfl
    | succ k => rfl
  | cons c cs ih =>
    cases k with
    | succ k => simp only [replaceFrom, replaceAny]; exact ih k
    | zero =>
      simp only [replaceFrom, replaceAny, firstMatch]
      cases r.pat.exec (c :: cs) with
      | none => simp [ih]
      | some rest => simp [ih]

theorem replace_eq_replaceAny (r : Rule) (s : List Nat) : r.replace s = replaceAny [r] 0 s :=
  replaceFrom_eq_replaceAny r 0 s

/-! ### Texts a pattern cannot start in -/

theorem clash_strip {p u : List Nat} (h : clash p u = true) (t : List Nat) :
    stripLit p (u ++ t) = none := by
  induction p generalizing u with
  | nil => simp [clash] at h
  | cons a as ih =>
    cases u with
    | nil => simp [clash] at h
    | cons b bs =>
      simp only [clash, Bool.or_eq_true, bne_iff_ne] at h
      simp only [List.cons_append, stripLit]
      split
      · next hb =>
        rcases h with h | h
        · exact absurd hb.symm h
        · exact ih h
      · rfl

theorem clash_of_head {p : List Nat} {h u : Nat} (hp : p.head? = some h) (hu : h ≠ u)
    (cs : List Nat) : clash p (u :: cs) = true := by
  cases p with
  | nil => simp at hp
  | cons a as =>
    simp only [List.head?_cons, Option.some.injEq] at hp
    subst hp
    simp [clash, hu]

theorem clash_append {p q : List Nat} (h : clash p q = true) (z : List Nat) :
    clash p (q ++ z) = true := by
  induction p generalizing q with
  | nil => simp [clash] at h
  | cons a as ih =>
    cases q with
    | nil => simp [clash] at h
    | cons b bs =>
      simp only [clash, Bool.or_eq_true] at h
      simp only [List.cons_append, clash, Bool.or_eq_true]
      rcases h with h | h
      · exact Or.inl h
      · exact Or.inr (ih h)

theorem clash_symm {p q : List Nat} (h : clash p q = true) : clash q p = true := by
  induction p generalizing q with
  | nil => simp [clash] at h
  | cons a as ih =>
    cases q with
    | nil => simp [clash] at h
    | cons b bs =>
      simp only [clash, Bool.or_eq_true, bne_iff_ne] at h ⊢
      rcases h with h | h
      · exact Or.inl (Ne.symm h)
      · exact Or.inr (ih h)

theorem quiet_append {p w v : List Nat} (hw : quiet p w = true) (hv : quiet p v = true) :
    quiet p (w ++ v) = true := by
  induction w with
  | nil => simpa using hv
  | cons c cs ih =>
    simp only [quiet, Bool.and_eq_true] at hw
    simp only [List.cons_append, quiet, Bool.and_eq_true]
    exact ⟨clash_append (q := c :: cs) hw.1 v, ih hw.2⟩

theorem quiet_of_heads {p : List Nat} {h : Nat} (hp : p.head? = some h) {w : List Nat}
    (hw : ∀ u ∈ w, h ≠ u) : quiet p w = true := by
  induction w with
  | nil => rfl
  | cons c cs ih =>
    simp only [quiet, Bool.and_eq_true]
    exact ⟨clash_of_head hp (hw c (List.mem_cons_self _ _)) cs,
      ih (fun u hu => hw u (List.mem_cons_of_mem _ hu))⟩

theorem exec_none_of_strip {r : Rule} {s : List Nat} (h : stripLit r.lead s = none) :
    r.pat.exec s = none := by
  simp [Re.exec, Rule.pat, Re.run, h]

/-- A stretch of text where no rule can start is copied. -/
theorem replaceAny_quiet {rs : List Rule} {w : List Nat}
    (hq : ∀ r ∈ rs, quiet r.lead w = true) (t : List Nat) :
    replaceAny rs 0 (w ++ t) = w ++ replaceAny rs 0 t := by
  induction w with
  | nil => rfl
  | cons c cs ih =>
    have hnone : firstMatch rs (c :: (cs ++ t)) = none := by
      refine firstMatch_none.mpr (fun r hr => exec_none_of_strip ?_)
      have := hq r hr
      simp only [quiet, Bool.and_eq_true] at this
      exact clash_strip (u := c :: cs) this.1 t
    have hcs : ∀ r ∈ rs, quiet r.lead cs = true := by
      intro r hr
      have := hq r hr
      simp only [quiet, Bool.and_eq_true] at this
      exact this.2
    rw [List.cons_append, replaceAny_nomatch hnone, ih hcs, List.cons_append]

/-! ### Matching in front of text that stops it -/

theorem stripLit_append_stop {us a t : List Nat}
    (ht : ∀ y z, t = y :: z → us.contains y = false) :
    stripLit us (a ++ t) = (stripLit us a).map (fun a1 => a1 ++ t) := by
  induction us generalizing a with
  | nil => simp [stripLit]
  | cons u us ih =>
    have ht' : ∀ y z, t = y :: z → us.contains y = false := by
      intro y z h
      have := ht y z h
      simp only [List.contains_eq_any_beq, List.any_cons, Bool.or_eq_false_iff] at this ⊢
      exact this.2
    cases a with
    | nil =>
      cases t with
      | nil => simp [stripLit]
      | cons y z =>
        have := ht y z rfl
        simp only [List.contains_eq_any_beq, List.any_cons, Bool.or_eq_false_iff,
          beq_eq_false_iff_ne] at this
        simp [stripLit, this.1]
    | cons c cs =>
      rw [List.cons_append]
      simp only [stripLit]
      split
      · exact ih ht'
      · rfl

theorem starRun_append {α : Type} (p : Nat → Bool) (k : List Nat → Option α) (a t : List Nat)
    (ht : ∀ y z, t = y :: z → p y = false) :
    starRun p k (a ++ t) = starRun p (fun a1 => k (a1 ++ t)) a := by
  induction a with
  | nil =>
    cases t with
    | nil => simp [starRun]
    | cons y z => simp [starRun, ht y z rfl]
  | cons c cs ih =>
    rw [List.cons_append]
    simp only [starRun, ih, List.cons_append]

/-- A pattern without `$` that reaches a unit it cannot consume behaves as at
the end of the input. -/
theorem run_append {α : Type} (p : Re) (k : List Nat → Option α) (a t : List Nat)
    (hp : p.hasEol = false) (ht : ∀ y z, t = y :: z → p.accepts y = false) :
    p.run k (a ++ t) = p.run (fun a1 => k (a1 ++ t)) a := by
  induction p generalizing k a with
  | lit us =>
    simp only [Re.run, stripLit_append_stop (a := a) (fun y z h => by simpa [Re.accepts] using ht y z h)]
    cases stripLit us a <;> rfl
  | one c =>
    cases a with
    | nil =>
      cases t with
      | nil => simp [Re.run]
      | cons y z =>
        have := ht y z rfl
        simp only [Re.accepts] at this
        simp [Re.run, this]
    | cons x xs =>
      rw [List.cons_append]
      simp only [Re.run]
  | star c =>
    simp only [Re.run]
    exact starRun_append _ _ _ _ (fun y z h => by simpa [Re.accepts] using ht y z h)
  | plus c =>
    cases a with
    | nil =>
      cases t with
      | nil => simp [Re.run]
      | cons y z =>
        have := ht y z rfl
        simp only [Re.accepts] at this
        simp [Re.run, this]
    | cons x xs =>
      rw [List.cons_append]
      simp only [Re.run]
      rw [starRun_append _ _ _ _ (fun y z h => by simpa [Re.accepts] using ht y z h)]
  | eol => simp [Re.hasEol] at hp
  | cat a1 b iha ihb =>
    simp only [Re.hasEol, Bool.or_eq_false_iff] at hp
    have hta : ∀ y z, t = y :: z → a1.accepts y = false := fun y z h => by
      have := ht y z h
      simp only [Re.accepts, Bool.or_eq_false_iff] at this
      exact this.1
    have htb : ∀ y z, t = y :: z → b.accepts y = false := fun y z h => by
      have := ht y z h
      simp only [Re.accepts, Bool.or_eq_false_iff] at this
      exact this.2
    simp only [Re.run]
    rw [iha _ _ hp.1 hta]
    congr 1
    funext a2
    exact ihb _ _ hp.2 htb
  | alt a1 b iha ihb =>
    simp only [Re.hasEol, Bool.or_eq_false_iff] at hp
    have hta : ∀ y z, t = y :: z → a1.accepts y = false := fun y z h => by
      have := ht y z h
      simp only [Re.accepts, Bool.or_eq_false_iff] at this
      exact this.1
    have htb : ∀ y z, t = y :: z → b.accepts y = false := fun y z h => by
      have := ht y z h
      simp only [Re.accepts, Bool.or_eq_false_iff] at this
      exact this.2
    simp only [Re.run]
    rw [iha _ _ hp.1 hta, ihb _ _ hp.2 htb]
  | opt a1 iha =>
    simp only [Re.hasEol] at hp
    simp only [Re.run]
    rw [iha _ _ hp (fun y z h => by simpa [Re.accepts] using ht y z h)]

theorem starRun_map {α β : Type} (p : Nat → Bool) (k : List Nat → Option α) (g : α → β)
    (s : List Nat) :
    starRun p (fun x => (k x).map g) s = (starRun p k s).map g := by
  induction s with
  | nil => simp [starRun]
  | cons c cs ih =>
    simp only [starRun, ih]
    split
    · cases starRun p k cs <;> simp
    · rfl

theorem run_map {α β : Type} (p : Re) (k : List Nat → Option α) (g : α → β) (s : List Nat) :
    p.run (fun x => (k x).map g) s = (p.run k s).map g := by
  induction p generalizing k s with
  | lit us =>
    simp only [Re.run]
    cases stripLit us s <;> simp
  | one c =>
    cases s with
    | nil => simp [Re.run]
    | cons x xs =>
      simp only [Re.run]
      split <;> simp
  | star c => simp only [Re.run]; exact starRun_map _ _ _ _
  | plus c =>
    cases s with
    | nil => simp [Re.run]
    | cons x xs =>
      simp only [Re.run]
      split
      · exact starRun_map _ _ _ _
      · simp
  | eol =>
    simp only [Re.run]
    split <;> simp
  | cat a b iha ihb =>
    simp only [Re.run]
    rw [← iha]
    congr 1
    funext x
    exact ihb _ _
  | alt a b iha ihb =>
    simp only [Re.run, iha, ihb]
    cases a.run k s <;> simp
  | opt a iha =>
    simp only [Re.run, iha]
    cases a.run k s <;> simp

/-- Whether a rule matches at `c :: a` does not depend on what follows `a` from
a unit on that no match of the rule goes on with. -/
theorem exec_stops {m : Rule} (hm : m.tail.hasEol = false) (c : Nat) (a t : List Nat)
    (ht : stops m t = true) :
    m.pat.exec (c :: (a ++ t)) = (m.pat.exec (c :: a)).map (fun r => r ++ t) := by
  simp only [Re.exec, Rule.pat, Re.run]
  cases hl : m.lead with
  | nil =>
    simp only [stripLit]
    have h1 := run_append m.tail some (c :: a) t hm (fun y z h => by
      subst h
      simp only [stops, Rule.inner, Bool.not_eq_true', Bool.or_eq_false_iff] at ht
      exact ht.2)
    rw [List.cons_append] at h1
    rw [h1]
    exact run_map m.tail some (fun r => r ++ t) (c :: a)
  | cons l0 ls =>
    simp only [stripLit]
    by_cases hc : c = l0
    · simp only [hc, if_true]
      have hs := @stripLit_append_stop ls a t (fun y z h => by
        subst h
        simp only [stops, Rule.inner, hl, List.tail_cons, Bool.not_eq_true',
          Bool.or_eq_false_iff] at ht
        exact ht.1)
      rw [hs]
      cases stripLit ls a with
      | none => rfl
      | some a1 =>
        simp only [Option.map_some']
        rw [run_append m.tail some a1 t hm (fun y z h => by
          subst h
          simp only [stops, Rule.inner, Bool.not_eq_true', Bool.or_eq_false_iff] at ht
          exact ht.2)]
        exact run_map m.tail some (fun r => r ++ t) a1
    · simp [hc]

/-! ### Rules that come after others -/

theorem outside_some {m : Rule} {o : Option Nat} (h : outside m o = true) :
    ∃ u, o = some u ∧ m.inner u = false := by
  cases o with
  | none => simp [outside] at h
  | some u => exact ⟨u, rfl, by simpa [outside] using h⟩

/-- What `after m r` says, spelled out. -/
theorem after_spec {m r : Rule} (h : after m r = true) :
    clash m.lead r.lead = true ∧
    (∃ u, m.lead.head? = some u ∧ r.inner u = false) ∧
    (∀ w ∈ r.repl.parts, quiet m.lead w = true) ∧
    (∃ u, r.lead.head? = some u ∧ m.inner u = false) ∧
    (∃ u, r.repl.first = some u ∧ m.inner u = false) ∧
    m.tail.hasEol = false := by
  simp only [after, Bool.and_eq_true, List.all_eq_true, Bool.not_eq_true'] at h
  obtain ⟨⟨⟨⟨⟨h1, h2⟩, h3⟩, h4⟩, h5⟩, h6⟩ := h
  exact ⟨h1, outside_some h2, h3, outside_some h4, outside_some h5, h6⟩

theorem lead_ne_nil_of_head {r : Rule} {u : Nat} (h : r.lead.head? = some u) : r.lead ≠ [] := by
  intro hn; rw [hn] at h; simp at h

theorem led_of_after {m : Rule} {rs : List Rule} (h : ∀ r ∈ rs, after m r = true) : Led rs := by
  intro r hr
  obtain ⟨_, _, _, ⟨u, hu, _⟩, _⟩ := after_spec (h r hr)
  exact lead_ne_nil_of_head hu

theorem led_append {rs : List Rule} {m : Rule} (h : Led rs) (hm : m.lead ≠ []) :
    Led (rs ++ [m]) := by
  intro r hr
  rcases List.mem_append.mp hr with hr | hr
  · exact h r hr
  · simp only [List.mem_singleton] at hr
    subst hr; exact hm

theorem led_single {m : Rule} (hm : m.lead ≠ []) : Led [m] := by
  intro r hr
  simp only [List.mem_singleton] at hr
  subst hr; exact hm

theorem apply_first {p : Repl} {u : Nat} (h : p.first = some u) (mm : List Nat) :
    ∃ z, p.apply mm = u :: z := by
  cases p with
  | wrap pre post =>
    cases pre with
    | nil => simp [Repl.first] at h
    | cons a as =>
      simp only [Repl.first, List.head?_cons, Option.some.injEq] at h
      subst h
      exact ⟨as ++ mm ++ post, by simp [Repl.apply]⟩
  | const out =>
    cases out with
    | nil => simp [Repl.first] at h
    | cons a as =>
      simp only [Repl.first, List.head?_cons, Option.some.injEq] at h
      subst h
      exact ⟨as, rfl⟩

/-- A match of a rule, with the matched text made explicit. -/
theorem exec_pat_matched {r : Rule} {s rest : List Nat} (h : r.pat.exec s = some rest) :
    ∃ mm, s = mm ++ rest ∧ r.lead <+: mm ∧ ∀ u ∈ mm.drop 1, r.inner u = true := by
  obtain ⟨x, hs, hx⟩ := exec_pat_split h
  refine ⟨r.lead ++ x, hs, List.prefix_append _ _, ?_⟩
  intro u hu
  cases hl : r.lead with
  | nil =>
    rw [hl] at hu
    simp only [List.nil_append] at hu
    simp [Rule.inner, hx u (List.mem_of_mem_drop hu)]
  | cons l0 ls =>
    rw [hl] at hu
    simp only [List.cons_append, List.drop_succ_cons, List.drop_zero, List.mem_append] at hu
    rcases hu with hu | hu
    · simp [Rule.inner, hl, hu]
    · simp [Rule.inner, hx u hu]

/-- What the earlier rules make of a text agrees with the text up to a point
where no match of `m` goes on. -/
theorem replaceAny_stops {m : Rule} {rs : List Rule} (h : ∀ r ∈ rs, after m r = true)
    (s : List Nat) :
    ∃ a t t', s = a ++ t ∧ replaceAny rs 0 s = a ++ t' ∧ stops m t = true ∧ stops m t' = true := by
  have hl := led_of_after h
  induction s with
  | nil => exact ⟨[], [], [], rfl, by simp [replaceAny_nil hl], rfl, rfl⟩
  | cons c cs ih =>
    cases hfm : firstMatch rs (c :: cs) with
    | none =>
      obtain ⟨a, t, t', hs, hr, ht, ht'⟩ := ih
      exact ⟨c :: a, t, t', by simp [hs], by simp [replaceAny_nomatch hfm, hr], ht, ht'⟩
    | some p =>
      obtain ⟨r, rest⟩ := p
      have hr := firstMatch_some hfm
      obtain ⟨_, _, _, ⟨u, hu, hmu⟩, ⟨o, ho, hmo⟩, _⟩ := after_spec (h r hr.1)
      obtain ⟨mm, hs, hpre, _⟩ := exec_pat_matched hr.2
      have hc : c = u := by
        obtain ⟨z, hz⟩ := hpre
        cases hlead : r.lead with
        | nil => rw [hlead] at hu; simp at hu
        | cons l0 ls =>
          rw [hlead] at hu hz
          simp only [List.head?_cons, Option.some.injEq] at hu
          rw [← hz] at hs
          simp only [List.cons_append, List.cons.injEq] at hs
          rw [hs.1, hu]
      refine ⟨[], c :: cs, replaceAny rs 0 (c :: cs), rfl, rfl, ?_, ?_⟩
      · simp [stops, hc, hmu]
      · rw [hs] at hfm ⊢
        rw [replaceAny_match hl hfm]
        obtain ⟨z, hz⟩ := apply_first ho mm
        rw [hz]
        simp [stops, hmo]

/-! ### Adding one rule to a pass -/

theorem quiet_matched {m r : Rule} (h : after m r = true) {mm : List Nat}
    (hpre : r.lead <+: mm) (hin : ∀ u ∈ mm.drop 1, r.inner u = true) :
    quiet m.lead mm = true := by
  obtain ⟨hcl, ⟨u, hu, hru⟩, _, _, _, _⟩ := after_spec h
  obtain ⟨z, hz⟩ := hpre
  cases mm with
  | nil => rfl
  | cons c cs =>
    simp only [quiet, Bool.and_eq_true]
    constructor
    · rw [← hz]; exact clash_append hcl z
    · refine quiet_of_heads hu (fun v hv hv' => ?_)
      have := hin v (by simpa using hv)
      rw [← hv', hru] at this
      cases this

theorem quiet_apply {m r : Rule} (h : after m r = true) {mm : List Nat}
    (hpre : r.lead <+: mm) (hin : ∀ u ∈ mm.drop 1, r.inner u = true) :
    quiet m.lead (r.repl.apply mm) = true := by
  obtain ⟨_, _, hparts, _, _, _⟩ := after_spec h
  cases hrepl : r.repl with
  | wrap pre post =>
    rw [hrepl] at hparts
    simp only [Repl.parts, List.mem_cons, List.mem_singleton, List.not_mem_nil, or_false,
      forall_eq_or_imp, forall_eq] at hparts
    simp only [Repl.apply]
    exact quiet_append (quiet_append hparts.1 (quiet_matched h hpre hin)) hparts.2
  | const out =>
    rw [hrepl] at hparts
    simp only [Repl.parts, List.mem_singleton, forall_eq] at hparts
    simpa [Repl.apply] using hparts

theorem firstMatch_single (m : Rule) (s : List Nat) :
    firstMatch [m] s = (m.pat.exec s).map (fun rest => (m, rest)) := by
  simp only [firstMatch]
  cases m.pat.exec s <;> rfl

/-- Replacing by `m` what the rules `rs` made of a text is one pass with all of
them, when `m` may come after each of `rs`. -/
theorem replaceAny_after {m : Rule} {rs : List Rule} (hm : m.lead ≠ [])
    (hmt : m.tail.hasEol = false) (h : ∀ r ∈ rs, after m r = true) (s : List Nat) :
    replaceAny [m] 0 (replaceAny rs 0 s) = replaceAny (rs ++ [m]) 0 s := by
  have hl := led_of_after h
  have hl1 := led_single hm
  have hl2 := led_append hl hm
  suffices H : ∀ n (s : List Nat), s.length ≤ n →
      replaceAny [m] 0 (replaceAny rs 0 s) = replaceAny (rs ++ [m]) 0 s from H _ s le_rfl
  intro n
  induction n with
  | zero =>
    intro s hs
    have : s = [] := List.length_eq_zero.mp (by omega)
    subst this
    simp [replaceAny_nil hl, replaceAny_nil hl1, replaceAny_nil hl2]
  | succ n ih =>
    intro s hs
    cases s with
    | nil => simp [replaceAny_nil hl, replaceAny_nil hl1, replaceAny_nil hl2]
    | cons c cs =>
      cases hfm : firstMatch rs (c :: cs) with
      | some p =>
        obtain ⟨r, rest⟩ := p
        have hr := firstMatch_some hfm
        obtain ⟨mm, hsplit, hpre, hin⟩ := exec_pat_matched hr.2
        have hmm : mm ≠ [] := by
          intro hn
          rw [hn] at hpre
          exact hl r hr.1 (List.prefix_nil.mp hpre)
        have hlen : rest.length ≤ n := by
          have := congrArg List.length hsplit
          have hpos := List.length_pos.mpr hmm
          simp only [List.length_cons, List.length_append] at this hs
          omega
        have hfm2 : firstMatch (rs ++ [m]) (mm ++ rest) = some (r, rest) := by
          rw [firstMatch_append, ← hsplit, hfm]
        rw [hsplit] at hfm ⊢
        rw [replaceAny_match hl hfm, replaceAny_match hl2 hfm2]
        rw [@replaceAny_quiet [m] (r.repl.apply mm) (by
          intro r' hr'
          simp only [List.mem_singleton] at hr'
          subst hr'
          exact quiet_apply (h r hr.1) hpre hin)]
        rw [ih rest hlen]
      | none =>
        have hcs : cs.length ≤ n := by simp only [List.length_cons] at hs; omega
        cases hex : m.pat.exec (c :: cs) with
        | none =>
          obtain ⟨a, t, t', hs1, hr1, ht, ht'⟩ := replaceAny_stops h cs
          have h1 : m.pat.exec (c :: (a ++ t')) = none := by
            rw [exec_stops hmt c a t' ht']
            rw [hs1, exec_stops hmt c a t ht] at hex
            cases hca : m.pat.exec (c :: a) with
            | none => rfl
            | some v => rw [hca] at hex; simp at hex
          have hfm1 : firstMatch [m] (c :: (a ++ t')) = none := by
            rw [firstMatch_single, h1]; rfl
          have hfm2 : firstMatch (rs ++ [m]) (c :: cs) = none := by
            rw [firstMatch_append, hfm, hex]; rfl
          rw [replaceAny_nomatch hfm, replaceAny_nomatch hfm2, hr1, replaceAny_nomatch hfm1,
            ← hr1, ih cs hcs]
        | some rest =>
          obtain ⟨mm, hsplit, hpre, hin⟩ := exec_pat_matched hex
          cases mm with
          | nil => exact absurd (List.prefix_nil.mp hpre) hm
          | cons c0 mm' =>
            rw [List.cons_append] at hsplit
            injection hsplit with hc hcs'
            subst hc
            have hlen : rest.length ≤ n := by
              have := congrArg List.length hcs'
              simp only [List.length_append] at this
              omega
            -- the earlier rules find nothing inside the match of `m`
            have hq : ∀ r ∈ rs, quiet r.lead mm' = true := by
              intro r hr
              obtain ⟨_, _, _, ⟨u, hu, hmu⟩, _, _⟩ := after_spec (h r hr)
              refine quiet_of_heads hu (fun v hv hv' => ?_)
              have := hin v (by simpa using hv)
              rw [← hv', hmu] at this
              cases this
            obtain ⟨a, t, t', hs1, hr1, ht, ht'⟩ := replaceAny_stops h rest
            have h0 : m.pat.exec (c :: (mm' ++ a)) = some a := by
              have h2 := hex
              rw [hcs', hs1, ← List.append_assoc, exec_stops hmt c (mm' ++ a) t ht] at h2
              cases hca : m.pat.exec (c :: (mm' ++ a)) with
              | none => rw [hca] at h2; simp at h2
              | some v =>
                rw [hca] at h2
                simp only [Option.map_some', Option.some.injEq] at h2
                rw [List.append_cancel_right h2]
            have h1 : m.pat.exec (c :: mm' ++ (a ++ t')) = some (a ++ t') := by
              rw [List.cons_append, ← List.append_assoc, exec_stops hmt c (mm' ++ a) t' ht', h0]
              rfl
            have hfm1 : firstMatch [m] (c :: mm' ++ (a ++ t')) = some (m, a ++ t') := by
              rw [firstMatch_single, h1]; rfl
            have hfm2 : firstMatch (rs ++ [m]) (c :: mm' ++ rest) = some (m, rest) := by
              rw [firstMatch_append, List.cons_append, ← hcs', hfm, hex]; rfl
            rw [replaceAny_nomatch hfm, hcs', replaceAny_quiet hq, hr1]
            rw [← List.cons_append, replaceAny_match hl1 hfm1, ← List.cons_append,
              replaceAny_match hl2 hfm2, ← hr1, ih rest hlen]

/-! ### The header and severity rules -/

set_option maxRecDepth 100000 in
theorem nine_compatible : nineRules.Pairwise (fun a b => compatible a b = true) := by
  decide

set_option maxRecDepth 100000 in
theorem nine_good : ∀ r ∈ nineRules, r.lead ≠ [] ∧ r.tail.hasEol = false := by
  decide

/-! ### Successive replacements as one pass -/

theorem replaceAny_no_rules (s : List Nat) : replaceAny [] 0 s = s := by
  induction s with
  | nil => rfl
  | cons c cs ih => rw [replaceAny_nomatch (by rfl), ih]

theorem applyRules_append (rs : List Rule) (m : Rule) (s : List Nat) :
    applyRules (rs ++ [m]) s = m.replace (applyRules rs s) := by
  simp [applyRules, List.foldl_append]

theorem applyRules_append_list (rs ms : List Rule) (s : List Nat) :
    applyRules (rs ++ ms) s = applyRules ms (applyRules rs s) := by
  simp [applyRules, List.foldl_append]

/-- Successive replacements by pairwise compatible rules are one simultaneous pass. -/
theorem applyRules_eq_replaceAny (rs : List Rule)
    (hc : rs.Pairwise (fun a b => compatible a b = true))
    (hg : ∀ r ∈ rs, r.lead ≠ [] ∧ r.tail.hasEol = false) (s : List Nat) :
    applyRules rs s = replaceAny rs 0 s := by
  induction rs using List.reverseRecOn generalizing s with
  | nil => simp [applyRules, replaceAny_no_rules]
  | append_singleton init m ih =>
    rw [List.pairwise_append] at hc
    obtain ⟨hinit, _, hcross⟩ := hc
    have hm := hg m (by simp)
    rw [applyRules_append, ih hinit (fun r hr => hg r (by simp [hr])), replace_eq_replaceAny]
    refine replaceAny_after hm.1 hm.2 (fun r hr => ?_) s
    have := hcross r hr m (by simp)
    simp only [compatible, Bool.and_eq_true] at this
    exact this.2

theorem compatible_symm {a b : Rule} (h : compatible a b = true) : compatible b a = true := by
  simp only [compatible, Bool.and_eq_true] at h ⊢
  exact ⟨h.2, h.1⟩

theorem compatible_clash {a b : Rule} (h : compatible a b = true) :
    clash a.lead b.lead = true := by
  simp only [compatible, Bool.and_eq_true] at h
  exact (after_spec h.1).1

theorem compatible_irrefl (a : Rule) : compatible a a ≠ true := by
  intro h
  have hc := compatible_clash h
  have := clash_strip hc []
  rw [List.append_nil] at this
  have h2 := stripLit_append a.lead []
  rw [List.append_nil] at h2
  rw [h2] at this
  cases this

/-- Two compatible rules never match at the same place. -/
theorem exec_exclusive {a b : Rule} (h : compatible a b = true) {s ra rb : List Nat}
    (ha : a.pat.exec s = some ra) (hb : b.pat.exec s = some rb) : False := by
  obtain ⟨sa, hsa, _⟩ := exec_pat.mp ha
  obtain ⟨sb, hsb, _⟩ := exec_pat.mp hb
  have := clash_strip (compatible_clash h) sb
  rw [← hsb, hsa, stripLit_append] at this
  cases this

theorem pairwise_forall {rs : List Rule} (hc : rs.Pairwise (fun a b => compatible a b = true))
    {a b : Rule} (ha : a ∈ rs) (hb : b ∈ rs) (hab : a ≠ b) : compatible a b = true :=
  hc.forall (fun _ _ h => compatible_symm h) ha hb hab

theorem firstMatch_of_mem {rs : List Rule} (hc : rs.Pairwise (fun a b => compatible a b = true))
    {r : Rule} {s rest : List Nat} (hr : r ∈ rs) (he : r.pat.exec s = some rest) :
    firstMatch rs s = some (r, rest) := by
  cases hfm : firstMatch rs s with
  | none => rw [firstMatch_none.mp hfm r hr] at he; cases he
  | some p =>
    obtain ⟨r', rest'⟩ := p
    have h' := firstMatch_some hfm
    by_cases hrr : r' = r
    · subst hrr
      rw [h'.2] at he
      cases he
      rfl
    · exact absurd (exec_exclusive (pairwise_forall hc h'.1 hr hrr) h'.2 he) id

theorem firstMatch_perm {rs rs' : List Rule} (hc : rs.Pairwise (fun a b => compatible a b = true))
    (hp : rs'.Perm rs) (s : List Nat) : firstMatch rs' s = firstMatch rs s := by
  have hc' : rs'.Pairwise (fun a b => compatible a b = true) :=
    hp.symm.pairwise hc (fun h => compatible_symm h)
  cases hfm : firstMatch rs s with
  | none =>
    exact firstMatch_none.mpr (fun r hr => firstMatch_none.mp hfm r (hp.mem_iff.mp hr))
  | some p =>
    obtain ⟨r, rest⟩ := p
    have h' := firstMatch_some hfm
    exact firstMatch_of_mem hc' (hp.mem_iff.mpr h'.1) h'.2

theorem replaceAny_congr {rs rs' : List Rule} (h : ∀ s, firstMatch rs' s = firstMatch rs s)
    (k : Nat) (s : List Nat) : replaceAny rs' k s = replaceAny rs k s := by
  induction s generalizing k with
  | nil =>
    cases k with
    | zero => simp only [replaceAny, h]
    | succ k => rfl
  | cons c cs ih =>
    cases k with
    | zero => simp only [replaceAny, h, ih]
    | succ k => simp only [replaceAny, ih]

/-- The order in which pairwise compatible rules are applied does not matter. -/
theorem applyRules_perm {rs rs' : List Rule} (hc : rs.Pairwise (fun a b => compatible a b = true))
    (hg : ∀ r ∈ rs, r.lead ≠ [] ∧ r.tail.hasEol = false) (hp : rs'.Perm rs) (s : List Nat) :
    applyRules rs' s = applyRules rs s := by
  have hc' : rs'.Pairwise (fun a b => compatible a b = true) :=
    hp.symm.pairwise hc (fun h => compatible_symm h)
  rw [applyRules_eq_replaceAny rs hc hg,
    applyRules_eq_replaceAny rs' hc' (fun r hr => hg r (hp.mem_iff.mp hr))]
  exact replaceAny_congr (firstMatch_perm hc hp) 0 s

/-! ### Texts without raw markup -/

set_option maxRecDepth 100000 in
theorem tokens_head : ∀ t ∈ tokens, specialHead t = true := by decide

set_option maxRecDepth 100000 in
theorem tokens_one_line : ∀ t ∈ tokens, t.all (fun u => !isLineTerminator u) = true := by decide

theorem Safe.append {a b : List Nat} (ha : Safe a) (hb : Safe b) : Safe (a ++ b) := by
  induction ha with
  | nil => simpa using hb
  | unit c rest hc _ ih => exact Safe.unit c _ hc ih
  | token t rest ht _ ih => rw [List.append_assoc]; exact Safe.token t _ ht ih

theorem Safe.of_plain {x : List Nat} (h : ∀ u ∈ x, isSpecial u = false) : Safe x := by
  induction x with
  | nil => exact Safe.nil
  | cons c cs ih =>
    exact Safe.unit c cs (h c (List.mem_cons_self _ _)) (ih (fun u hu => h u (List.mem_cons_of_mem _ hu)))

theorem Safe.single_token {t : List Nat} (h : t ∈ tokens) : Safe t := by
  have := Safe.token t [] h Safe.nil
  simpa using this

theorem Safe.tail {c : Nat} {rest : List Nat} (h : Safe (c :: rest)) (hc : isSpecial c = false) :
    Safe rest := by
  generalize hs : c :: rest = s at h
  cases h with
  | nil => cases hs
  | unit c' rest' _ hr => cases hs; exact hr
  | token t rest' ht hr =>
    have hh := tokens_head t ht
    cases t with
    | nil => simp [specialHead] at hh
    | cons a as =>
      simp only [List.cons_append, List.cons.injEq] at hs
      simp only [specialHead] at hh
      rw [← hs.1, hc] at hh
      cases hh

theorem Safe.drop_plain {x rest : List Nat} (h : Safe (x ++ rest))
    (hx : ∀ u ∈ x, isSpecial u = false) : Safe rest := by
  induction x with
  | nil => simpa using h
  | cons c cs ih =>
    exact ih (Safe.tail h (hx c (List.mem_cons_self _ _)))
      (fun u hu => hx u (List.mem_cons_of_mem _ hu))

/-- A safe text splits at the end of a line into two safe texts. -/
theorem Safe.split_line {s : List Nat} (h : Safe s) :
    ∀ a b, s = a ++ b → atLineEnd b = true → Safe a ∧ Safe b := by
  induction h with
  | nil =>
    intro a b hs _
    have := List.append_eq_nil.mp hs.symm
    rw [this.1, this.2]
    exact ⟨Safe.nil, Safe.nil⟩
  | unit c rest hc hr ih =>
    intro a b hs hb
    cases a with
    | nil =>
      simp only [List.nil_append] at hs
      rw [← hs]
      exact ⟨Safe.nil, Safe.unit c rest hc hr⟩
    | cons a0 as =>
      simp only [List.cons_append, List.cons.injEq] at hs
      obtain ⟨h1, h2⟩ := ih as b hs.2 hb
      rw [← hs.1]
      exact ⟨Safe.unit c as hc h1, h2⟩
  | token t rest ht hr ih =>
    intro a b hs hb
    rcases List.append_eq_append_iff.mp hs with ⟨a', ha, hrest⟩ | ⟨c', ht', hb'⟩
    · obtain ⟨h1, h2⟩ := ih a' b hrest hb
      rw [ha]
      exact ⟨Safe.token t a' ht h1, h2⟩
    · cases c' with
      | nil =>
        simp only [List.append_nil] at ht'
        simp only [List.nil_append] at hb'
        obtain ⟨h1, h2⟩ := ih [] b (by simpa using hb'.symm) hb
        rw [← ht']
        exact ⟨Safe.single_token ht, h2⟩
      | cons c0 cs' =>
        cases a with
        | nil =>
          simp only [List.nil_append] at hs
          rw [← hs]
          exact ⟨Safe.nil, Safe.token t rest ht hr⟩
        | cons a0 as =>
          exfalso
          have hline := tokens_one_line t ht
          rw [ht'] at hline
          simp only [List.all_append, List.all_cons, Bool.and_eq_true, Bool.not_eq_true'] at hline
          rw [hb'] at hb
          simp only [List.cons_append, atLineEnd] at hb
          rw [hline.2.1] at hb
          cases hb

/-! ### Replacements keep a text free of raw markup -/

/-- A match of a pattern that ends with `$` ends at the end of a line. -/
theorem run_endsEol {α : Type} (p : Re) (k : List Nat → Option α) (s : List Nat) (v : α)
    (hp : p.endsEol = true) (h : p.run k s = some v) :
    ∃ rest, k rest = some v ∧ atLineEnd rest = true := by
  induction p generalizing k s v with
  | eol =>
    simp only [Re.run] at h
    split at h
    · next hs => exact ⟨s, h, hs⟩
    · cases h
  | cat a b _ ihb =>
    simp only [Re.run] at h
    obtain ⟨x, rest, _, hk, _⟩ := run_consumed a _ s v h
    exact ihb k rest v hp hk
  | alt a b iha ihb =>
    simp only [Re.endsEol, Bool.and_eq_true] at hp
    simp only [Re.run] at h
    split at h
    · next r hr => cases h; exact iha k s _ hp.1 hr
    · exact ihb k s v hp.2 h
  | lit us => simp [Re.endsEol] at hp
  | one c => simp [Re.endsEol] at hp
  | star c => simp [Re.endsEol] at hp
  | plus c => simp [Re.endsEol] at hp
  | opt a _ => simp [Re.endsEol] at hp

theorem isSpecial_cases {u : Nat} (h : isSpecial u = true) : u = 0x26 ∨ u = 0x3C ∨ u = 0x3E := by
  simpa [isSpecial, or_assoc] using h

theorem plainRule_matched {r : Rule} (hp : plainRule r = true) {s rest : List Nat}
    (h : r.pat.exec s = some rest) :
    ∃ mm, s = mm ++ rest ∧ ∀ u ∈ mm, isSpecial u = false := by
  obtain ⟨x, hs, hx⟩ := exec_pat_split h
  simp only [plainRule, Bool.and_eq_true, List.all_eq_true, Bool.not_eq_true'] at hp
  obtain ⟨⟨⟨hlead, h1⟩, h2⟩, h3⟩ := hp
  refine ⟨r.lead ++ x, hs, ?_⟩
  intro u hu
  rcases List.mem_append.mp hu with hu | hu
  · exact hlead u hu
  · cases hsp : isSpecial u with
    | false => rfl
    | true =>
      have hacc := hx u hu
      rcases isSpecial_cases hsp with rfl | rfl | rfl
      · rw [h1] at hacc; cases hacc
      · rw [h2] at hacc; cases hacc
      · rw [h3] at hacc; cases hacc

set_option maxRecDepth 100000 in
theorem badgeOpens_tokens : ∀ o ∈ badgeOpens, o ∈ tokens := by decide

set_option maxRecDepth 100000 in
theorem spanClose_token : spanClose ∈ tokens := by decide

theorem outOk_safe {p : Repl} (h : outOk p = true) (mm : List Nat) (hmm : Safe mm) :
    Safe (p.apply mm) := by
  cases p with
  | wrap pre post =>
    simp only [outOk, Bool.and_eq_true, List.elem_iff, List.contains] at h
    simp only [Repl.apply, List.append_assoc]
    exact Safe.token pre _ h.1 (Safe.append hmm (Safe.single_token h.2))
  | const out =>
    simp only [outOk, Bool.or_eq_true, List.elem_iff, List.contains, List.any_eq_true] at h
    simp only [Repl.apply]
    rcases h with h | ⟨o, ho, h⟩
    · exact Safe.single_token h
    · cases hs : stripLit o out with
      | none => simp [hs] at h
      | some rest =>
        simp only [hs, Bool.and_eq_true, beq_iff_eq, List.all_eq_true, Bool.not_eq_true'] at h
        have hout := stripLit_eq_some.mp hs
        have hrest := (List.take_append_drop (rest.length - spanClose.length) rest).symm
        rw [h.1] at hrest
        rw [hout, hrest]
        exact Safe.token o _ (badgeOpens_tokens o ho)
          (Safe.append (Safe.of_plain h.2) (Safe.single_token spanClose_token))

/-- Replacing by a rule keeps a text safe when no match starts inside a token,
a match and what follows it are safe, and the replacement keeps a match safe. -/
theorem safe_replaceAny (r : Rule) (hl : r.lead ≠ []) (hq : quietTokens r = true)
    (hsplit : ∀ mm rest, Safe (mm ++ rest) → r.pat.exec (mm ++ rest) = some rest →
      Safe mm ∧ Safe rest)
    (hout : outOk r.repl = true) (s : List Nat) (hs : Safe s) : Safe (replaceAny [r] 0 s) := by
  have hl1 := led_single hl
  suffices H : ∀ n (s : List Nat), s.length ≤ n → Safe s → Safe (replaceAny [r] 0 s) from
    H _ s le_rfl hs
  intro n
  induction n with
  | zero =>
    intro s hn _
    have : s = [] := List.length_eq_zero.mp (by omega)
    subst this
    rw [replaceAny_nil hl1]
    exact Safe.nil
  | succ n ih =>
    intro s hn hs
    cases s with
    | nil => rw [replaceAny_nil hl1]; exact Safe.nil
    | cons c cs =>
      cases hfm : firstMatch [r] (c :: cs) with
      | some p =>
        obtain ⟨r', rest⟩ := p
        have hr := firstMatch_some hfm
        have hrr : r' = r := by simpa using hr.1
        subst hrr
        obtain ⟨mm, hsplit', hpre, _⟩ := exec_pat_matched hr.2
        have hmm : mm ≠ [] := by
          intro h0
          rw [h0] at hpre
          exact hl (List.prefix_nil.mp hpre)
        have hlen : rest.length ≤ n := by
          have := congrArg List.length hsplit'
          have hpos := List.length_pos.mpr hmm
          simp only [List.length_cons, List.length_append] at this hn
          omega
        rw [hsplit'] at hfm hs hr ⊢
        obtain ⟨h1, h2⟩ := hsplit mm rest hs hr.2
        rw [replaceAny_match hl1 hfm]
        exact Safe.append (outOk_safe hout mm h1) (ih rest hlen h2)
      | none =>
        generalize hgen : c :: cs = s0 at hs
        cases hs with
        | nil => cases hgen
        | unit c' rest' hc hr =>
          cases hgen
          rw [replaceAny_nomatch hfm]
          exact Safe.unit c _ hc
            (ih cs (by simp only [List.length_cons] at hn; omega) hr)
        | token t rest' ht hr =>
          have hne : 0 < t.length := by
            have := tokens_head t ht
            cases t with
            | nil => simp [specialHead] at this
            | cons a as => simp
          have hlen : rest'.length ≤ n := by
            have := congrArg List.length hgen
            simp only [List.length_cons, List.length_append] at this hn
            omega
          rw [@replaceAny_quiet [r] t (by
            intro r' hr'
            simp only [List.mem_singleton] at hr'
            subst hr'
            simp only [quietTokens, List.all_eq_true] at hq
            exact hq t ht)]
          exact Safe.token t _ ht (ih rest' hlen hr)

/-- A rule whose matches are plain text keeps a text safe. -/
theorem safe_replace_plain (r : Rule) (hl : r.lead ≠ []) (hq : quietTokens r = true)
    (hp : plainRule r = true) (hout : outOk r.repl = true) (s : List Nat) (hs : Safe s) :
    Safe (r.replace s) := by
  rw [replace_eq_replaceAny]
  refine safe_replaceAny r hl hq (fun mm rest hsafe hex => ?_) hout s hs
  obtain ⟨mm', hsplit, hplain⟩ := plainRule_matched hp hex
  have : mm' = mm := List.append_cancel_right hsplit.symm
  subst this
  exact ⟨Safe.of_plain hplain, Safe.drop_plain hsafe hplain⟩

/-- A rule whose matches end at the end of a line keeps a text safe. -/
theorem safe_replace_line (r : Rule) (hl : r.lead ≠ []) (hq : quietTokens r = true)
    (he : r.tail.endsEol = true) (hout : outOk r.repl = true) (s : List Nat) (hs : Safe s) :
    Safe (r.replace s) := by
  rw [replace_eq_replaceAny]
  refine safe_replaceAny r hl hq (fun mm rest hsafe hex => ?_) hout s hs
  obtain ⟨rest', hk, hend⟩ := run_endsEol r.pat some (mm ++ rest) rest (by simpa [Rule.pat, Re.endsEol] using he) hex
  rw [Option.some.injEq] at hk
  rw [hk] at hend
  exact Safe.split_line hsafe mm rest rfl hend

theorem safe_replace_tame (r : Rule) (h : tame r = true) (s : List Nat) (hs : Safe s) :
    Safe (r.replace s) := by
  simp only [tame, Bool.and_eq_true, Bool.or_eq_true, Bool.not_eq_true', List.isEmpty_eq_false] at h
  obtain ⟨⟨⟨hl, hq⟩, hout⟩, hp⟩ := h
  rcases hp with hp | hp
  · exact safe_replace_plain r hl hq hp hout s hs
  · exact safe_replace_line r hl hq hp hout s hs

theorem safe_applyRules (rs : List Rule) (h : ∀ r ∈ rs, tame r = true) (s : List Nat)
    (hs : Safe s) : Safe (applyRules rs s) := by
  induction rs generalizing s with
  | nil => exact hs
  | cons r rs ih =>
    simp only [applyRules, List.foldl_cons]
    exact ih (fun r' hr' => h r' (List.mem_cons_of_mem _ hr')) _
      (safe_replace_tame r (h r (List.mem_cons_self _ _)) s hs)

set_option maxRecDepth 100000 in
theorem rules_tame : ∀ r ∈ sepRule :: (headers ++ severities ++ [disclaimerRule]), tame r = true := by
  decide

/-! ### The escaping -/

theorem substUnit_append (u : Nat) (out a b : List Nat) :
    substUnit u out (a ++ b) = substUnit u out a ++ substUnit u out b := by
  induction a with
  | nil => rfl
  | cons c cs ih => simp [substUnit, ih]

/-- A global replacement of a single unit by a fixed string. -/
theorem replace_single (r : Rule) (u : Nat) (out : List Nat) (hl : r.lead = [u])
    (ht : r.tail = .lit []) (hr : r.repl = .const out) (s : List Nat) :
    r.replace s = substUnit u out s := by
  have hled : Led [r] := led_single (by rw [hl]; simp)
  have hex : ∀ c cs, r.pat.exec (c :: cs) = if c = u then some cs else none := by
    intro c cs
    by_cases hc : c = u
    · simp [Re.exec, Rule.pat, Re.run, hl, ht, stripLit, hc]
    · simp [Re.exec, Rule.pat, Re.run, hl, ht, stripLit, hc]
  rw [replace_eq_replaceAny]
  induction s with
  | nil => rw [replaceAny_nil hled]; rfl
  | cons c cs ih =>
    by_cases hc : c = u
    · have hfm : firstMatch [r] ([c] ++ cs) = some (r, cs) := by
        rw [firstMatch_single, List.singleton_append, hex, if_pos hc]; rfl
      have := replaceAny_match hled hfm
      rw [List.singleton_append] at this
      rw [this, ih, hr]
      simp [substUnit, hc, Repl.apply]
    · have hfm : firstMatch [r] (c :: cs) = none := by
        rw [firstMatch_single, hex, if_neg hc]; rfl
      rw [replaceAny_nomatch hfm, ih]
      simp [substUnit, hc]

theorem amp_replace (s : List Nat) : ampRule.replace s = substUnit 0x26 (utf16 "&amp;") s :=
  replace_single ampRule _ _ (by decide) rfl rfl s

theorem lt_replace (s : List Nat) : ltRule.replace s = substUnit 0x3C (utf16 "&lt;") s :=
  replace_single ltRule _ _ (by decide) rfl rfl s

theorem gt_replace (s : List Nat) : gtRule.replace s = substUnit 0x3E (utf16 "&gt;") s :=
  replace_single gtRule _ _ (by decide) rfl rfl s

/-- The three successive replacements escape each unit on its own. -/
theorem escapeStep_eq (s : List Nat) : escapeStep s = escapeHtml s := by
  simp only [escapeStep, amp_replace, lt_replace, gt_replace]
  induction s with
  | nil => rfl
  | cons c cs ih =>
    simp only [substUnit, escapeHtml, substUnit_append, ih]
    congr 1
    by_cases h1 : c = 0x26
    · subst h1; decide
    · by_cases h2 : c = 0x3C
      · subst h2; decide
      · by_cases h3 : c = 0x3E
        · subst h3; decide
        · simp [escapeUnit, substUnit, h1, h2, h3]

set_option maxRecDepth 100000 in
theorem entities_tokens : ∀ e ∈ entities, e ∈ tokens := by decide

theorem safe_escapeUnit (c : Nat) (rest : List Nat) (h : Safe rest) :
    Safe (escapeUnit c ++ rest) := by
  unfold escapeUnit
  split
  · exact Safe.token _ _ (entities_tokens _ (by decide)) h
  · split
    · exact Safe.token _ _ (entities_tokens _ (by decide)) h
    · split
      · exact Safe.token _ _ (entities_tokens _ (by decide)) h
      · next h1 h2 h3 =>
        exact Safe.unit c rest (by simp [isSpecial, h1, h2, h3]) h

theorem safe_escapeHtml (s : List Nat) : Safe (escapeHtml s) := by
  induction s with
  | nil => exact Safe.nil
  | cons c cs ih => exact safe_escapeUnit c _ ih

/-- The output of the formatter holds no raw markup. -/
theorem safe_formatResponse (text : List Nat) : Safe (formatResponse text) := by
  have hall := rules_tame
  have h0 : Safe (escapeStep text) := by rw [escapeStep_eq]; exact safe_escapeHtml text
  have h1 := safe_replace_tame sepRule (hall _ (by simp)) _ h0
  have h2 := safe_applyRules headers (fun r hr => hall r (by simp [hr])) _ h1
  have h3 := safe_applyRules severities (fun r hr => hall r (by simp [hr])) _ h2
  exact safe_replace_tame disclaimerRule (hall _ (by simp)) _ h3

/-! ### Matching on escaped text -/

theorem plainRe_spec {p : Re} (h : plainRe p = true) {u : Nat} (hu : isSpecial u = true) :
    p.accepts u = false := by
  simp only [plainRe, Bool.and_eq_true, Bool.not_eq_true'] at h
  rcases isSpecial_cases hu with rfl | rfl | rfl
  · exact h.1.1
  · exact h.1.2
  · exact h.2

theorem escapeUnit_plain {c : Nat} (h : isSpecial c = false) : escapeUnit c = [c] := by
  simp only [isSpecial, Bool.or_eq_false_iff, beq_eq_false_iff_ne] at h
  simp [escapeUnit, h.1.1, h.1.2, h.2]

theorem escapeUnit_special {c : Nat} (h : isSpecial c = true) :
    ∃ t, escapeUnit c = 0x26 :: t ∧ escapeUnit c ∈ entities := by
  rcases isSpecial_cases h with rfl | rfl | rfl
  · exact ⟨(utf16 "&amp;").tail, by decide, by decide⟩
  · exact ⟨(utf16 "&lt;").tail, by decide, by decide⟩
  · exact ⟨(utf16 "&gt;").tail, by decide, by decide⟩

theorem special_not_line {c : Nat} (h : isSpecial c = true) : isLineTerminator c = false := by
  rcases isSpecial_cases h with rfl | rfl | rfl <;> decide

theorem atLineEnd_escape (s : List Nat) : atLineEnd (escapeHtml s) = atLineEnd s := by
  cases s with
  | nil => rfl
  | cons c cs =>
    cases hc : isSpecial c with
    | false => simp [escapeHtml, escapeUnit_plain hc, atLineEnd]
    | true =>
      obtain ⟨t, ht, _⟩ := escapeUnit_special hc
      simp [escapeHtml, ht, atLineEnd, special_not_line hc]
      decide

theorem stripLit_escape {us : List Nat} (h : ∀ u ∈ us, isSpecial u = false) (s : List Nat) :
    stripLit us (escapeHtml s) = (stripLit us s).map escapeHtml := by
  induction us generalizing s with
  | nil => simp [stripLit]
  | cons u us ih =>
    have hu := h u (List.mem_cons_self _ _)
    have hus : ∀ v ∈ us, isSpecial v = false := fun v hv => h v (List.mem_cons_of_mem _ hv)
    cases s with
    | nil => simp [stripLit, escapeHtml]
    | cons c cs =>
      cases hc : isSpecial c with
      | false =>
        simp only [escapeHtml, escapeUnit_plain hc, List.singleton_append, stripLit]
        split
        · exact ih hus cs
        · rfl
      | true =>
        obtain ⟨t, ht, _⟩ := escapeUnit_special hc
        have h1 : (0x26 : Nat) ≠ u := by
          intro h0; rw [← h0] at hu; revert hu; decide
        have h2 : c ≠ u := by
          intro h0; rw [h0, hu] at hc; cases hc
        simp only [escapeHtml, ht, List.cons_append, stripLit, if_neg h1, if_neg h2, Option.map_none']

theorem starRun_escape {α : Type} {p : Nat → Bool} (hp : ∀ u, isSpecial u = true → p u = false)
    (k : List Nat → Option α) (s : List Nat) :
    starRun p k (escapeHtml s) = starRun p (fun s1 => k (escapeHtml s1)) s := by
  induction s with
  | nil => simp [starRun, escapeHtml]
  | cons c cs ih =>
    cases hc : isSpecial c with
    | false =>
      simp only [escapeHtml, escapeUnit_plain hc, List.singleton_append, starRun, ih]
    | true =>
      obtain ⟨t, ht, _⟩ := escapeUnit_special hc
      have h1 : p 0x26 = false := hp _ (by decide)
      simp only [escapeHtml, ht, List.cons_append, starRun, h1, hp c hc]
      simp

/-- A pattern that consumes none of `&`, `<`, `>` runs on an escaped text as on
the text itself. -/
theorem run_escape {α : Type} (p : Re) (hp : plainRe p = true) (k : List Nat → Option α)
    (s : List Nat) :
    p.run k (escapeHtml s) = p.run (fun s1 => k (escapeHtml s1)) s := by
  induction p generalizing k s with
  | lit us =>
    have hus : ∀ u ∈ us, isSpecial u = false := by
      intro u hu
      cases hsp : isSpecial u with
      | false => rfl
      | true =>
        have := plainRe_spec hp hsp
        simp only [Re.accepts] at this
        have h2 : us.contains u = true := List.elem_eq_true_of_mem hu
        rw [h2] at this
        cases this
    simp only [Re.run, stripLit_escape hus]
    cases stripLit us s <;> rfl
  | one c =>
    cases s with
    | nil => simp [Re.run, escapeHtml]
    | cons x xs =>
      cases hx : isSpecial x with
      | false => simp only [escapeHtml, escapeUnit_plain hx, List.singleton_append, Re.run]
      | true =>
        obtain ⟨t, ht, _⟩ := escapeUnit_special hx
        have h1 : c.test 0x26 = false := by
          have := plainRe_spec hp (u := 0x26) (by decide)
          simpa [Re.accepts] using this
        have h2 : c.test x = false := by
          have := plainRe_spec hp hx
          simpa [Re.accepts] using this
        simp [escapeHtml, ht, Re.run, h1, h2]
  | star c =>
    simp only [Re.run]
    exact starRun_escape (fun u hu => by simpa [Re.accepts] using plainRe_spec hp hu) k s
  | plus c =>
    have hc : ∀ u, isSpecial u = true → c.test u = false :=
      fun u hu => by simpa [Re.accepts] using plainRe_spec hp hu
    cases s with
    | nil => simp [Re.run, escapeHtml]
    | cons x xs =>
      cases hx : isSpecial x with
      | false =>
        simp only [escapeHtml, escapeUnit_plain hx, List.singleton_append, Re.run,
          starRun_escape hc]
      | true =>
        obtain ⟨t, ht, _⟩ := escapeUnit_special hx
        simp [escapeHtml, ht, Re.run, hc x hx, hc 0x26 (by decide)]
  | eol =>
    simp only [Re.run, atLineEnd_escape]
  | cat a b iha ihb =>
    have hab : plainRe a = true ∧ plainRe b = true := by
      simp only [plainRe, Re.accepts, Bool.and_eq_true, Bool.not_eq_true',
        Bool.or_eq_false_iff] at hp ⊢
      exact ⟨⟨⟨hp.1.1.1, hp.1.2.1⟩, hp.2.1⟩, ⟨⟨hp.1.1.2, hp.1.2.2⟩, hp.2.2⟩⟩
    simp only [Re.run]
    rw [iha hab.1]
    congr 1
    funext s1
    exact ihb hab.2 k s1
  | alt a b iha ihb =>
    have hab : plainRe a = true ∧ plainRe b = true := by
      simp only [plainRe, Re.accepts, Bool.and_eq_true, Bool.not_eq_true',
        Bool.or_eq_false_iff] at hp ⊢
      exact ⟨⟨⟨hp.1.1.1, hp.1.2.1⟩, hp.2.1⟩, ⟨⟨hp.1.1.2, hp.1.2.2⟩, hp.2.2⟩⟩
    simp only [Re.run, iha hab.1, ihb hab.2]
  | opt a iha =>
    have ha : plainRe a = true := by simpa [plainRe, Re.accepts] using hp
    simp only [Re.run, iha ha]

theorem starRun_isSome_congr {α β : Type} (p : Nat → Bool) (k : List Nat → Option α)
    (k' : List Nat → Option β) (h : ∀ x, (k x).isSome = (k' x).isSome) (s : List Nat) :
    (starRun p k s).isSome = (starRun p k' s).isSome := by
  induction s with
  | nil => simpa [starRun] using h []
  | cons c cs ih =>
    simp only [starRun]
    split
    · have hh := h (c :: cs)
      cases h1 : starRun p k cs <;> cases h2 : starRun p k' cs <;>
        (simp [h1, h2] at ih ⊢; try exact hh)
    · exact h _

/-- Whether a pattern matches depends on its continuation only through where
the continuation succeeds. -/
theorem run_isSome_congr {α β : Type} (p : Re) (k : List Nat → Option α)
    (k' : List Nat → Option β) (h : ∀ x, (k x).isSome = (k' x).isSome) (s : List Nat) :
    (p.run k s).isSome = (p.run k' s).isSome := by
  induction p generalizing α β s with
  | lit us =>
    simp only [Re.run]
    cases stripLit us s with
    | none => rfl
    | some rest => exact h rest
  | one c =>
    cases s with
    | nil => rfl
    | cons x xs =>
      simp only [Re.run]
      split
      · exact h xs
      · rfl
  | star c => exact starRun_isSome_congr _ _ _ h s
  | plus c =>
    cases s with
    | nil => rfl
    | cons x xs =>
      simp only [Re.run]
      split
      · exact starRun_isSome_congr _ _ _ h xs
      · rfl
  | eol =>
    simp only [Re.run]
    split
    · exact h s
    · rfl
  | cat a b iha ihb =>
    simp only [Re.run]
    exact iha _ _ (fun x => ihb k k' h x) s
  | alt a b iha ihb =>
    simp only [Re.run]
    have h1 := iha k k' h s
    have h2 := ihb k k' h s
    cases ha : a.run k s <;> cases ha' : a.run k' s <;> (simp [ha, ha'] at h1 ⊢; try exact h2)
  | opt a iha =>
    simp only [Re.run]
    have h1 := iha k k' h s
    have h2 := h s
    cases ha : a.run k s <;> cases ha' : a.run k' s <;> (simp [ha, ha'] at h1 ⊢; try exact h2)

/-! ### Texts no pattern matches in -/

/-- A greedy repetition whose continuation fails in front of every unit the
repetition takes never falls back: it runs to the first unit it does not take. -/
theorem starRun_greedy {α : Type} (p : Nat → Bool) (k : List Nat → Option α)
    (hk : ∀ c cs, p c = true → k (c :: cs) = none) (s : List Nat) :
    starRun p k s = k (s.dropWhile p) := by
  induction s with
  | nil => rfl
  | cons c cs ih =>
    simp only [starRun, List.dropWhile_cons]
    split
    · next hc =>
      rw [ih]
      cases h : k (List.dropWhile p cs) with
      | some r => rfl
      | none => exact hk c cs hc
    · rfl

theorem dropWhile_escape (s : List Nat) :
    (escapeHtml s).dropWhile (fun u => !isLineTerminator u) =
      escapeHtml (s.dropWhile (fun u => !isLineTerminator u)) := by
  induction s with
  | nil => rfl
  | cons c cs ih =>
    cases hc : isSpecial c with
    | false =>
      simp only [escapeHtml, escapeUnit_plain hc, List.singleton_append, List.dropWhile_cons]
      split
      · exact ih
      · simp [escapeHtml, escapeUnit_plain hc]
    | true =>
      have hline := special_not_line hc
      have hent : ∀ e ∈ entities, ∀ t : List Nat,
          (e ++ t).dropWhile (fun u => !isLineTerminator u) =
            t.dropWhile (fun u => !isLineTerminator u) := by
        intro e he t
        simp only [entities, List.mem_cons, List.mem_singleton, List.not_mem_nil, or_false] at he
        rcases he with rfl | rfl | rfl <;> rfl
      obtain ⟨_, _, hmem⟩ := escapeUnit_special hc
      simp only [escapeHtml, List.dropWhile_cons, hline, Bool.not_false, if_true]
      rw [hent _ hmem, ih]

/-- The end `.*$` of a pattern on an escaped text. -/
theorem lineRest_escape {α β : Type} (k : List Nat → Option α) (k' : List Nat → Option β)
    (h : ∀ x, (k (escapeHtml x)).isSome = (k' x).isSome) (s : List Nat) :
    ((Re.cat (.star .dot) .eol).run k (escapeHtml s)).isSome =
      ((Re.cat (.star .dot) .eol).run k' s).isSome := by
  have hg : ∀ {γ : Type} (k0 : List Nat → Option γ) (t : List Nat),
      (Re.cat (.star .dot) .eol).run k0 t =
        Re.eol.run k0 (t.dropWhile (fun u => !isLineTerminator u)) := by
    intro γ k0 t
    simp only [Re.run]
    exact starRun_greedy _ _ (fun c cs hc => by
      simp only [Cls.test, Bool.not_eq_true'] at hc
      simp [atLineEnd, hc]) t
  rw [hg, hg, dropWhile_escape]
  simp only [Re.run, atLineEnd_escape]
  split
  · exact h _
  · rfl

/-- A stable pattern matches an escaped text exactly when it matches the text. -/
theorem run_stable {α β : Type} (p : Re) (hp : p.stable = true) (k : List Nat → Option α)
    (k' : List Nat → Option β) (h : ∀ x, (k (escapeHtml x)).isSome = (k' x).isSome)
    (s : List Nat) : (p.run k (escapeHtml s)).isSome = (p.run k' s).isSome := by
  have hplain : ∀ q : Re, plainRe q = true → ∀ (s : List Nat),
      (q.run k (escapeHtml s)).isSome = (q.run k' s).isSome := by
    intro q hq s
    rw [run_escape q hq]
    exact run_isSome_congr q _ _ h s
  induction p generalizing α β s with
  | cat a b _ ihb =>
    simp only [Re.stable, Bool.or_eq_true, Bool.and_eq_true, beq_iff_eq] at hp
    rcases hp with ⟨rfl, rfl⟩ | ⟨ha, hb⟩
    · exact lineRest_escape k k' h s
    · simp only [Re.run]
      rw [run_escape a ha]
      refine run_isSome_congr a _ _ (fun x => ?_) s
      exact ihb hb k k' h x (fun q hq s => by
        rw [run_escape q hq]
        exact run_isSome_congr q _ _ h s)
  | lit us => exact hplain _ (by simpa [Re.stable] using hp) s
  | one c => exact hplain _ (by simpa [Re.stable] using hp) s
  | star c => exact hplain _ (by simpa [Re.stable] using hp) s
  | plus c => exact hplain _ (by simpa [Re.stable] using hp) s
  | eol => exact hplain _ (by simpa [Re.stable] using hp) s
  | alt a b _ _ => exact hplain _ (by simpa [Re.stable] using hp) s
  | opt a _ => exact hplain _ (by simpa [Re.stable] using hp) s

theorem exec_escape_none {r : Rule} (hst : r.pat.stable = true) {s : List Nat}
    (h : r.pat.exec s = none) : r.pat.exec (escapeHtml s) = none := by
  have := run_stable r.pat hst some some (fun x => rfl) s
  simp only [Re.exec] at h ⊢
  rw [h] at this
  cases h2 : r.pat.run some (escapeHtml s) with
  | none => rfl
  | some v => rw [h2] at this; cases this

/-- A rule that matches nowhere in a text leaves the escaped text as it is. -/
theorem replace_escape_id (r : Rule) (hl : r.lead ≠ []) (hq : ∀ e ∈ entities, quiet r.lead e = true)
    (hst : r.pat.stable = true) (text : List Nat)
    (hno : ∀ t, t <:+ text → r.pat.exec t = none) :
    r.replace (escapeHtml text) = escapeHtml text := by
  rw [replace_eq_replaceAny]
  induction text with
  | nil => simp [escapeHtml, replaceAny_nil (led_single hl)]
  | cons c cs ih =>
    have ih' := ih (fun t ht => hno t (List.IsSuffix.trans ht (List.suffix_cons c cs)))
    cases hc : isSpecial c with
    | true =>
      obtain ⟨_, _, hmem⟩ := escapeUnit_special hc
      simp only [escapeHtml]
      rw [@replaceAny_quiet [r] (escapeUnit c) (by
        intro r' hr'
        simp only [List.mem_singleton] at hr'
        subst hr'
        exact hq _ hmem), ih']
    | false =>
      have hex := exec_escape_none hst (hno (c :: cs) (List.suffix_refl _))
      simp only [escapeHtml, escapeUnit_plain hc, List.singleton_append] at hex ⊢
      have hfm : firstMatch [r] (c :: escapeHtml cs) = none := by
        rw [firstMatch_single, hex]; rfl
      rw [replaceAny_nomatch hfm, ih']

set_option maxRecDepth 100000 in
theorem markupRules_inert : ∀ r ∈ markupRules, inertOnEscaped r = true := by decide

theorem noMatch_spec {rules : List Rule} {text : List Nat} (h : noMatch rules text = true)
    {r : Rule} (hr : r ∈ rules) {t : List Nat} (ht : t <:+ text) : r.pat.exec t = none := by
  simp only [noMatch, List.all_eq_true, List.mem_tails] at h
  have := h t ht r hr
  cases hx : r.pat.exec t with
  | none => rfl
  | some v => rw [hx] at this; cases this

theorem applyRules_id (rs : List Rule) (x : List Nat) (h : ∀ r ∈ rs, r.replace x = x) :
    applyRules rs x = x := by
  induction rs with
  | nil => rfl
  | cons r rs ih =>
    simp only [applyRules, List.foldl_cons]
    rw [h r (List.mem_cons_self _ _)]
    exact ih (fun r' hr' => h r' (List.mem_cons_of_mem _ hr'))

/-- A text in which no pattern of the formatter matches comes out escaped and
nothing else. -/
theorem formatResponse_plain (text : List Nat) (h : noMatch markupRules text = true) :
    formatResponse text = escapeHtml text := by
  have hid : ∀ r ∈ markupRules, r.replace (escapeHtml text) = escapeHtml text := by
    intro r hr
    have hin := markupRules_inert r hr
    simp only [inertOnEscaped, Bool.and_eq_true, Bool.not_eq_true', List.isEmpty_eq_false,
      List.all_eq_true] at hin
    exact replace_escape_id r hin.1.1 hin.1.2 hin.2 text (fun t ht => noMatch_spec h hr ht)
  simp only [formatResponse, escapeStep_eq]
  rw [hid sepRule (by simp [markupRules]),
    applyRules_id headers _ (fun r hr => hid r (by simp [markupRules, hr])),
    applyRules_id severities _ (fun r hr => hid r (by simp [markupRules, hr])),
    hid disclaimerRule (by simp [markupRules])]

/-! ### Markup place by place -/

set_option maxRecDepth 100000 in
theorem fixedTags_no_amp : ∀ t ∈ fixedTags, t.all (fun u => u != 0x26) = true := by decide

set_option maxRecDepth 100000 in
theorem entities_shape : ∀ e ∈ entities,
    e.head? = some 0x26 ∧ e.tail.all (fun u => !isSpecial u) = true := by decide

theorem Safe.noRawMarkup {out : List Nat} (h : Safe out) : NoRawMarkup out := by
  induction h with
  | nil =>
    intro pre c post hs _
    cases pre <;> cases hs
  | unit u rest hu _ ih =>
    intro pre c post hs hc
    cases pre with
    | nil =>
      simp only [List.nil_append, List.cons.injEq] at hs
      rw [hs.1, hc] at hu
      cases hu
    | cons p pre' =>
      simp only [List.cons_append, List.cons.injEq] at hs
      rcases ih pre' c post hs.2 hc with h1 | ⟨h2, t, ht, a, b, hab, ha, hb⟩
      · exact Or.inl h1
      · exact Or.inr ⟨h2, t, ht, a, b, hab, List.IsSuffix.trans ha (List.suffix_cons p pre'), hb⟩
  | token t rest ht _ ih =>
    intro pre c post hs hc
    rcases List.append_eq_append_iff.mp hs with ⟨a', hpre, hrest⟩ | ⟨c', ht', hpost⟩
    · rcases ih a' c post hrest hc with h1 | ⟨h2, t2, ht2, a, b, hab, ha, hb⟩
      · exact Or.inl h1
      · refine Or.inr ⟨h2, t2, ht2, a, b, hab, ?_, hb⟩
        rw [hpre]
        exact List.IsSuffix.trans ha (List.suffix_append t a')
    · cases c' with
      | nil =>
        simp only [List.nil_append] at hpost
        rcases ih [] c post (by simpa using hpost.symm) hc with h1 | ⟨h2, t2, ht2, a, b, hab, ha, hb⟩
        · exact Or.inl h1
        · refine Or.inr ⟨h2, t2, ht2, a, b, hab, ?_, hb⟩
          rw [List.suffix_nil] at ha
          rw [ha]
          exact List.nil_suffix
      | cons c0 cs =>
        simp only [List.cons_append, List.cons.injEq] at hpost
        obtain ⟨hc0, hpost⟩ := hpost
        subst hc0
        simp only [tokens, List.mem_append] at ht
        rcases ht with hent | htag
        · have hsh := entities_shape t hent
          cases pre with
          | nil =>
            simp only [List.nil_append] at ht'
            rw [ht'] at hsh
            simp only [List.head?_cons, Option.some.injEq] at hsh
            refine Or.inl ⟨hsh.1, t, hent, ?_⟩
            rw [ht', hpost]
            exact List.prefix_append (c :: cs) rest
          | cons p pre' =>
            rw [ht'] at hsh
            have := hsh.2
            simp only [List.cons_append, List.tail_cons, List.all_eq_true, Bool.not_eq_true'] at this
            have := this c (by simp)
            rw [hc] at this
            cases this
        · have hna := fixedTags_no_amp t htag
          simp only [List.all_eq_true, bne_iff_ne] at hna
          refine Or.inr ⟨hna c (by rw [ht']; simp), t, htag, pre, cs, ht', List.suffix_refl pre, ?_⟩
          rw [hpost]
          exact List.prefix_append cs rest

set_option maxRecDepth 100000 in
theorem fixedTags_shape : ∀ t ∈ fixedTags, tagShape t = true := by decide

/-! ### What the disclaimer pattern sees of the earlier steps -/

theorem starRun_fallback {α : Type} (p : Nat → Bool) (k : List Nat → Option α) (s : List Nat)
    (h : (k s).isSome = true) : (starRun p k s).isSome = true := by
  cases s with
  | nil => exact h
  | cons c cs =>
    simp only [starRun]
    split
    · cases starRun p k cs with
      | some v => rfl
      | none => exact h
    · exact h

theorem starRun_mono {α β : Type} (p : Nat → Bool) (k : List Nat → Option α)
    (k' : List Nat → Option β) (t : List Nat)
    (h : ∀ x, (k x).isSome = true → (k' (x ++ t)).isSome = true) (a : List Nat)
    (ha : (starRun p k a).isSome = true) : (starRun p k' (a ++ t)).isSome = true := by
  induction a with
  | nil => exact starRun_fallback p k' t (h [] ha)
  | cons c cs ih =>
    simp only [List.cons_append, starRun] at ha ⊢
    by_cases hc : p c = true
    · simp only [hc, if_true] at ha ⊢
      cases h1 : starRun p k cs with
      | some v =>
        have h2 := ih (by simp [h1])
        cases h3 : starRun p k' (cs ++ t) with
        | some w => rfl
        | none => rw [h3] at h2; cases h2
      | none =>
        rw [h1] at ha
        have h2 := h (c :: cs) ha
        cases h3 : starRun p k' (cs ++ t) with
        | some w => rfl
        | none => exact h2
    · simp only [hc] at ha ⊢
      exact h (c :: cs) ha

/-- A pattern without `$` that matches a text matches it with more text behind. -/
theorem run_mono {α β : Type} (p : Re) (hp : p.hasEol = false) (k : List Nat → Option α)
    (k' : List Nat → Option β) (t : List Nat)
    (h : ∀ x, (k x).isSome = true → (k' (x ++ t)).isSome = true) (a : List Nat)
    (ha : (p.run k a).isSome = true) : (p.run k' (a ++ t)).isSome = true := by
  induction p generalizing α β a with
  | lit us =>
    simp only [Re.run] at ha ⊢
    cases hs : stripLit us a with
    | none => rw [hs] at ha; cases ha
    | some rest =>
      rw [hs] at ha
      have hr := stripLit_eq_some.mp hs
      have : stripLit us (a ++ t) = some (rest ++ t) :=
        stripLit_eq_some.mpr (by rw [hr, List.append_assoc])
      rw [this]
      exact h rest ha
  | one c =>
    cases a with
    | nil => cases ha
    | cons x xs =>
      simp only [List.cons_append, Re.run] at ha ⊢
      by_cases hx : c.test x = true
      · simp only [hx, if_true] at ha ⊢
        exact h xs ha
      · simp [hx] at ha
  | star c => exact starRun_mono _ k k' t h a ha
  | plus c =>
    cases a with
    | nil => cases ha
    | cons x xs =>
      simp only [List.cons_append, Re.run] at ha ⊢
      by_cases hx : c.test x = true
      · simp only [hx, if_true] at ha ⊢
        exact starRun_mono _ k k' t h xs ha
      · simp [hx] at ha
  | eol => simp [Re.hasEol] at hp
  | cat a1 b iha ihb =>
    simp only [Re.hasEol, Bool.or_eq_false_iff] at hp
    simp only [Re.run] at ha ⊢
    exact iha hp.1 _ _ (fun x hx => ihb hp.2 k k' h x hx) a ha
  | alt a1 b iha ihb =>
    simp only [Re.hasEol, Bool.or_eq_false_iff] at hp
    simp only [Re.run] at ha ⊢
    cases h1 : a1.run k a with
    | some v =>
      have h2 := iha hp.1 k k' h a (by simp [h1])
      cases h3 : a1.run k' (a ++ t) with
      | some w => rfl
      | none => rw [h3] at h2; cases h2
    | none =>
      rw [h1] at ha
      have h2 := ihb hp.2 k k' h a ha
      cases h3 : a1.run k' (a ++ t) with
      | some w => rfl
      | none => exact h2
  | opt a1 iha =>
    simp only [Re.hasEol] at hp
    simp only [Re.run] at ha ⊢
    cases h1 : a1.run k a with
    | some v =>
      have h2 := iha hp k k' h a (by simp [h1])
      cases h3 : a1.run k' (a ++ t) with
      | some w => rfl
      | none => rw [h3] at h2; cases h2
    | none =>
      rw [h1] at ha
      have h2 := h a ha
      cases h3 : a1.run k' (a ++ t) with
      | some w => rfl
      | none => exact h2

/-- A rule without `$` that does not match a text does not match its start. -/
theorem exec_mono {q : Rule} (hq : q.tail.hasEol = false) (a t : List Nat)
    (h : q.pat.exec (a ++ t) = none) : q.pat.exec a = none := by
  cases ha : q.pat.exec a with
  | none => rfl
  | some v =>
    have hp : q.pat.hasEol = false := by simp [Rule.pat, Re.hasEol, hq]
    have := run_mono q.pat hp some some t (fun x _ => rfl) a (by
      simp only [Re.exec] at ha
      simp [ha])
    simp only [Re.exec] at h
    rw [h] at this
    cases this

theorem nowhere_cons {q : Rule} {c : Nat} {s : List Nat} :
    Nowhere q (c :: s) ↔ q.pat.exec (c :: s) = none ∧ Nowhere q s := by
  constructor
  · intro h
    exact ⟨h _ (List.suffix_refl _), fun t ht => h t (List.IsSuffix.trans ht (List.suffix_cons c s))⟩
  · intro h t ht
    rcases List.suffix_cons_iff.mp ht with rfl | ht'
    · exact h.1
    · exact h.2 t ht'

theorem nowhere_prepend {q : Rule} (x y : List Nat)
    (hx : ∀ a c b, x = a ++ c :: b → q.pat.exec (c :: (b ++ y)) = none) (hy : Nowhere q y) :
    Nowhere q (x ++ y) := by
  induction x with
  | nil => exact hy
  | cons c cs ih =>
    rw [List.cons_append, nowhere_cons]
    exact ⟨hx [] c cs rfl, ih (fun a c' b hab => hx (c :: a) c' b (by rw [hab]; rfl))⟩

theorem quiet_exec {q : Rule} {w : List Nat} (hw : quiet q.lead w = true) (a : List Nat) (c : Nat)
    (b y : List Nat) (hs : w = a ++ c :: b) : q.pat.exec (c :: (b ++ y)) = none := by
  induction a generalizing w with
  | nil =>
    rw [hs] at hw
    simp only [List.nil_append, quiet, Bool.and_eq_true] at hw
    exact exec_none_of_strip (clash_strip hw.1 y)
  | cons a0 as ih =>
    rw [hs] at hw
    simp only [List.cons_append, quiet, Bool.and_eq_true] at hw
    exact ih hw.2 rfl

theorem blind_spec {q r : Rule} (h : blind q r = true) :
    r.lead ≠ [] ∧ q.tail.hasEol = false ∧
    ∀ w ∈ r.repl.parts, quiet q.lead w = true ∧ ∃ u z, w = u :: z ∧ q.inner u = false := by
  simp only [blind, Bool.and_eq_true, Bool.not_eq_true', List.isEmpty_eq_false,
    List.all_eq_true] at h
  refine ⟨h.1.1, h.1.2, fun w hw => ⟨(h.2 w hw).1, ?_⟩⟩
  obtain ⟨u, hu, hin⟩ := outside_some (h.2 w hw).2
  cases w with
  | nil => simp at hu
  | cons w0 ws =>
    simp only [List.head?_cons, Option.some.injEq] at hu
    exact ⟨w0, ws, rfl, by rw [hu]; exact hin⟩

/-- What `r` puts out for a match starts with a unit no match of `q` goes on with. -/
theorem blind_apply {q r : Rule} (h : blind q r = true) (mm y : List Nat) :
    stops q (r.repl.apply mm ++ y) = true := by
  obtain ⟨_, _, hparts⟩ := blind_spec h
  cases hr : r.repl with
  | wrap pre post =>
    obtain ⟨_, u, z, hu, hin⟩ := hparts pre (by simp [hr, Repl.parts])
    simp [Repl.apply, hu, stops, hin]
  | const out =>
    obtain ⟨_, u, z, hu, hin⟩ := hparts out (by simp [hr, Repl.parts])
    simp [Repl.apply, hu, stops, hin]

theorem exec_blind {q r : Rule} (hb : blind q r = true) (s : List Nat) (c : Nat) (a : List Nat)
    (h : q.pat.exec (c :: (a ++ s)) = none) :
    q.pat.exec (c :: (a ++ replaceAny [r] 0 s)) = none := by
  obtain ⟨hl, hq, _⟩ := blind_spec hb
  induction s generalizing a with
  | nil => rw [replaceAny_nil (led_single hl)]; exact h
  | cons x xs ih =>
    cases hfm : firstMatch [r] (x :: xs) with
    | none =>
      rw [replaceAny_nomatch hfm]
      have := ih (a ++ [x]) (by simpa using h)
      simpa using this
    | some pr =>
      obtain ⟨r', rest⟩ := pr
      obtain ⟨hmem, hex⟩ := firstMatch_some hfm
      simp only [List.mem_singleton] at hmem
      subst hmem
      obtain ⟨mm, hmm, _, _⟩ := exec_pat_matched hex
      rw [hmm] at hfm ⊢
      rw [replaceAny_match (led_single hl) hfm, exec_stops hq c a _ (blind_apply hb mm _)]
      have : q.pat.exec (c :: a) = none := exec_mono hq (c :: a) (x :: xs) (by simpa using h)
      rw [this]
      rfl

theorem nowhere_replaceAny {q r : Rule} (hb : blind q r = true) :
    ∀ (n : Nat) (s : List Nat), s.length ≤ n → Nowhere q s → Nowhere q (replaceAny [r] 0 s) := by
  obtain ⟨hl, hq, hparts⟩ := blind_spec hb
  intro n
  induction n with
  | zero =>
    intro s hn hs
    have : s = [] := List.length_eq_zero.mp (Nat.le_zero.mp hn)
    rw [this, replaceAny_nil (led_single hl)]
    rw [this] at hs
    exact hs
  | succ n ih =>
    intro s hn hs
    cases s with
    | nil => rw [replaceAny_nil (led_single hl)]; exact hs
    | cons x xs =>
      have hs' := nowhere_cons.mp hs
      cases hfm : firstMatch [r] (x :: xs) with
      | none =>
        rw [replaceAny_nomatch hfm, nowhere_cons]
        refine ⟨?_, ih xs (by simpa using hn) hs'.2⟩
        have := exec_blind hb xs x [] (by simpa using hs'.1)
        simpa using this
      | some pr =>
        obtain ⟨r', rest⟩ := pr
        obtain ⟨hmem, hex⟩ := firstMatch_some hfm
        simp only [List.mem_singleton] at hmem
        subst hmem
        obtain ⟨mm, hmm, hpre, _⟩ := exec_pat_matched hex
        have hmne : mm ≠ [] := by
          intro h0
          rw [h0] at hpre
          exact hl (List.prefix_nil.mp hpre)
        have hlen : rest.length ≤ n := by
          have h1 : (x :: xs).length = mm.length + rest.length := by rw [hmm, List.length_append]
          have h2 : 0 < mm.length := List.length_pos.mpr hmne
          simp only [List.length_cons] at h1 hn
          omega
        have hrest : Nowhere q rest := fun t ht =>
          hs t (by rw [hmm]; exact List.IsSuffix.trans ht (List.suffix_append mm rest))
        have hY := ih rest hlen hrest
        rw [hmm] at hfm ⊢
        rw [replaceAny_match (led_single hl) hfm]
        cases hr : r'.repl with
        | const out =>
          simp only [Repl.apply]
          exact nowhere_prepend out _
            (fun a c b hab => quiet_exec (hparts out (by simp [hr, Repl.parts])).1 a c b _ hab) hY
        | wrap pre post =>
          simp only [Repl.apply, List.append_assoc]
          have hpost := hparts post (by simp [hr, Repl.parts])
          have hpre' := hparts pre (by simp [hr, Repl.parts])
          have h1 : Nowhere q (post ++ replaceAny [r'] 0 rest) :=
            nowhere_prepend post _ (fun a c b hab => quiet_exec hpost.1 a c b _ hab) hY
          have h2 : Nowhere q (mm ++ (post ++ replaceAny [r'] 0 rest)) := by
            refine nowhere_prepend mm _ (fun a c b hab => ?_) h1
            obtain ⟨_, u, z, hu, hin⟩ := hpost
            have hst : stops q (post ++ replaceAny [r'] 0 rest) = true := by
              simp [hu, stops, hin]
            rw [exec_stops hq c b _ hst]
            have hno : q.pat.exec ((c :: b) ++ rest) = none :=
              hs _ (by
                rw [hmm, hab, List.append_assoc]
                exact List.suffix_append a _)
            rw [exec_mono hq (c :: b) rest hno]
            rfl
          exact nowhere_prepend pre _ (fun a c b hab => quiet_exec hpre'.1 a c b _ hab) h2

/-- A rule that matches nowhere in a text matches nowhere in the text after a
replacement that shows it nothing new. -/
theorem nowhere_replace {q r : Rule} (hb : blind q r = true) (s : List Nat)
    (hs : Nowhere q s) : Nowhere q (r.replace s) := by
  rw [replace_eq_replaceAny]
  exact nowhere_replaceAny hb s.length s (Nat.le_refl _) hs

theorem nowhere_applyRules {q : Rule} (rs : List Rule) (hb : ∀ r ∈ rs, blind q r = true)
    (s : List Nat) (hs : Nowhere q s) : Nowhere q (applyRules rs s) := by
  induction rs generalizing s with
  | nil => exact hs
  | cons r rs ih =>
    simp only [applyRules, List.foldl_cons]
    exact ih (fun r' hr' => hb r' (List.mem_cons_of_mem _ hr')) _
      (nowhere_replace (hb r (List.mem_cons_self _ _)) s hs)

/-- The end `.*$` of a pattern matches at every position. -/
theorem lineRest_some (x : List Nat) :
    ((Re.cat (.star .dot) .eol).run some x).isSome = true := by
  have hg : (Re.cat (.star .dot) .eol).run some x =
      Re.eol.run some (x.dropWhile (fun u => !isLineTerminator u)) := by
    simp only [Re.run]
    exact starRun_greedy _ _ (fun c cs hc => by
      simp only [Cls.test, Bool.not_eq_true'] at hc
      simp [atLineEnd, hc]) x
  rw [hg]
  simp only [Re.run]
  have : atLineEnd (x.dropWhile (fun u => !isLineTerminator u)) = true := by
    cases hd : x.dropWhile (fun u => !isLineTerminator u) with
    | nil => rfl
    | cons y ys =>
      have hne : x.dropWhile (fun u => !isLineTerminator u) ≠ [] := by
        rw [hd]; exact List.cons_ne_nil _ _
      have := List.head_dropWhile_not (fun u => !isLineTerminator u) x hne
      simp only [hd, List.head_cons, Bool.not_eq_false'] at this
      simpa [atLineEnd] using this
  simp [this]

/-- The disclaimer pattern matches where its part up to the colon matches. -/
theorem disclaimer_head (t : List Nat) :
    (disclaimerRule.pat.exec t).isSome = (disclaimerHead.pat.exec t).isSome := by
  simp only [Re.exec, Rule.pat, disclaimerRule, disclaimerHead]
  simp only [Re.run]
  cases stripLit (utf16 "⚖️") t with
  | none => rfl
  | some rest =>
    refine run_isSome_congr (.plus .space) _ _ (fun x => ?_) rest
    refine run_isSome_congr (.lit (utf16 "Disclaimer:")) _ _ (fun y => ?_) x
    exact lineRest_some y

theorem nowhere_disclaimer {s : List Nat} :
    Nowhere disclaimerRule s ↔ Nowhere disclaimerHead s := by
  constructor
  · intro h t ht
    have := disclaimer_head t
    rw [h t ht] at this
    cases h2 : disclaimerHead.pat.exec t with
    | none => rfl
    | some v => rw [h2] at this; cases this
  · intro h t ht
    have := disclaimer_head t
    rw [h t ht] at this
    cases h2 : disclaimerRule.pat.exec t with
    | none => rfl
    | some v => rw [h2] at this; cases this

/-- A replacement whose pattern matches nowhere leaves the text as it is. -/
theorem replace_nowhere {r : Rule} (hl : r.lead ≠ []) {s : List Nat} (h : Nowhere r s) :
    r.replace s = s := by
  rw [replace_eq_replaceAny]
  induction s with
  | nil => exact replaceAny_nil (led_single hl) 0
  | cons c cs ih =>
    have h' := nowhere_cons.mp h
    have hfm : firstMatch [r] (c :: cs) = none := by
      rw [firstMatch_single, h'.1]; rfl
    rw [replaceAny_nomatch hfm, ih h'.2]

set_option maxRecDepth 100000 in
theorem earlier_blind : ∀ r ∈ earlierRules, blind disclaimerHead r = true := by decide

theorem formatResponse_eq_applyRules (text : JSString) :
    formatResponse text = disclaimerRule.replace (applyRules earlierRules text) := by
  simp [formatResponse, escapeStep, earlierRules, applyRules, List.foldl_append]

theorem nowhere_of_noMatch {r : Rule} {text : List Nat} (h : noMatch [r] text = true) :
    Nowhere r text :=
  fun _ ht => noMatch_spec h (List.mem_singleton_self r) ht

/-- In a text the disclaimer pattern matches nowhere in, the disclaimer step
changes nothing: the output is the escaped text with its separators replaced
after one pass that replaces every header and every severity occurrence. -/
theorem formatResponse_of_nowhere (text : JSString) (h : Nowhere disclaimerRule text) :
    formatResponse text =
      replaceAny (headers ++ severities) 0 (sepRule.replace (escapeStep text)) := by
  have h1 : Nowhere disclaimerHead (applyRules earlierRules text) :=
    nowhere_applyRules earlierRules earlier_blind text (nowhere_disclaimer.mp h)
  rw [formatResponse_eq_applyRules,
    replace_nowhere (by decide) (nowhere_disclaimer.mpr h1)]
  have : applyRules earlierRules text =
      applyRules nineRules (sepRule.replace (escapeStep text)) := by
    simp [escapeStep, earlierRules, nineRules, applyRules, List.foldl_append]
  rw [this, applyRules_eq_replaceAny nineRules nine_compatible nine_good]
  rfl

/-! ### A header alone -/

theorem headers_compatible : headers.Pairwise (fun a b => compatible a b = true) :=
  nine_compatible.sublist (List.sublist_append_left headers severities)

theorem headers_good : ∀ r ∈ headers, r.lead ≠ [] ∧ r.tail.hasEol = false :=
  fun r hr => nine_good r (List.mem_append_left _ hr)

/-- The header loop of `formatResponse` is one pass over the text that wraps
every occurrence of a header pattern. -/
theorem headers_one_pass (s : List Nat) : applyRules headers s = replaceAny headers 0 s :=
  applyRules_eq_replaceAny headers headers_compatible headers_good s

theorem starRun_full {α : Type} (p : Nat → Bool) (k : List Nat → Option α) (a : List Nat) (v : α)
    (ha : ∀ c ∈ a, p c = true) (hk : k [] = some v) : starRun p k a = some v := by
  induction a with
  | nil => exact hk
  | cons c cs ih =>
    simp only [starRun, ha c (List.mem_cons_self _ _), if_true,
      ih (fun u hu => ha u (List.mem_cons_of_mem _ hu))]

theorem starRun_none {α : Type} (p : Nat → Bool) (k : List Nat → Option α) (s : List Nat)
    (h : ∀ t, t <:+ s → k t = none) : starRun p k s = none := by
  induction s with
  | nil => exact h [] (List.suffix_refl _)
  | cons c cs ih =>
    have h1 := ih (fun t ht => h t (List.IsSuffix.trans ht (List.suffix_cons c cs)))
    have h2 := h (c :: cs) (List.suffix_refl _)
    simp only [starRun, h1, h2]
    split <;> rfl

theorem escapeHtml_plain {x : List Nat} (h : ∀ u ∈ x, isSpecial u = false) :
    escapeHtml x = x := by
  induction x with
  | nil => rfl
  | cons c cs ih =>
    simp only [escapeHtml, escapeUnit_plain (h c (List.mem_cons_self _ _)),
      ih (fun u hu => h u (List.mem_cons_of_mem _ hu)), List.singleton_append]

theorem space_not_special {c : Nat} (h : isSpace c = true) : isSpecial c = false := by
  cases hs : isSpecial c with
  | false => rfl
  | true =>
    rcases isSpecial_cases hs with rfl | rfl | rfl <;> simp [isSpace] at h

/-- A rule whose first unit is not in the text matches nowhere in it. -/
theorem nowhere_of_absent {r : Rule} {u : Nat} (hl : r.lead.head? = some u) {s : List Nat}
    (hs : u ∉ s) : Nowhere r s := by
  intro t ht
  cases t with
  | nil => exact exec_pat_nil (lead_ne_nil_of_head hl)
  | cons c cs =>
    have hc : c ∈ s := ht.subset (List.mem_cons_self _ _)
    have hne : u ≠ c := fun h => hs (h ▸ hc)
    have := clash_strip (clash_of_head hl hne cs) []
    rw [List.append_nil] at this
    exact exec_none_of_strip this

/-- A header pattern matches the emoji, whitespace and the label. -/
theorem header_exec (h : Rule) (re : Re) (L : List Nat)
    (htail : h.tail = .cat (.plus .space) re) (hre : re.run some L = some [])
    (hL : isSpace (L.headD 0x20) = false)
    (ws : List Nat) (hne : ws ≠ []) (hws : ∀ c ∈ ws, isSpace c = true) :
    h.pat.exec (h.lead ++ ws ++ L) = some [] := by
  rw [exec_pat]
  refine ⟨ws ++ L, by rw [List.append_assoc], ?_⟩
  rw [htail]
  cases ws with
  | nil => exact absurd rfl hne
  | cons w ws' =>
    simp only [List.cons_append, Re.run, Cls.test, hws w (List.mem_cons_self _ _), if_true]
    show starRun isSpace (re.run some) (ws' ++ L) = some []
    rw [starRun_append isSpace _ ws' L (fun y z hyz => by
      rw [hyz] at hL
      simpa using hL)]
    exact starRun_full isSpace _ ws' [] (fun c hc => hws c (List.mem_cons_of_mem _ hc)) (by
      simpa using hre)

theorem stripLit_absent {D : List Nat} {d : Nat} (hD : D.head? = some d) {t s : List Nat}
    (ht : t <:+ s) (hs : d ∉ s) : stripLit D t = none := by
  cases t with
  | nil =>
    cases D with
    | nil => simp at hD
    | cons _ _ => rfl
  | cons c cs =>
    have hc : c ∈ s := ht.subset (List.mem_cons_self _ _)
    have hne : d ≠ c := fun h => hs (h ▸ hc)
    have := clash_strip (clash_of_head hD hne cs) []
    rw [List.append_nil] at this
    exact this

/-- The pattern `\s+` followed by a literal fails on a text without the first
unit of the literal. -/
theorem plus_lit_none (D : List Nat) (d : Nat) (hD : D.head? = some d) (s : List Nat)
    (hs : d ∉ s) : (Re.cat (.plus .space) (.lit D)).run some s = none := by
  cases s with
  | nil => rfl
  | cons x xs =>
    simp only [Re.run]
    split
    · refine starRun_none _ _ _ (fun t ht => ?_)
      rw [stripLit_absent hD (List.IsSuffix.trans ht (List.suffix_cons x xs)) hs]
    · rfl

/-- The disclaimer pattern does not match in a header. -/
theorem header_no_disclaimer (lead L : List Nat) (hL : 0x2696 ∉ L)
    (hd : 0x2696 ∉ lead ∨ (lead = utf16 "⚖️" ∧ 0x44 ∉ L))
    (ws : List Nat) (hws : ∀ c ∈ ws, isSpace c = true) :
    Nowhere disclaimerRule (lead ++ ws ++ L) := by
  rw [nowhere_disclaimer]
  have hsp : (0x2696 : Nat) ∉ ws := fun h => by
    have := hws _ h
    simp [isSpace] at this
  have hsD : (0x44 : Nat) ∉ ws := fun h => by
    have := hws _ h
    simp [isSpace] at this
  rcases hd with hd | ⟨hlead, hD⟩
  · refine @nowhere_of_absent disclaimerHead 0x2696 (by decide) _ ?_
    simp only [List.mem_append, not_or]
    exact ⟨⟨hd, hsp⟩, hL⟩
  · subst hlead
    have h0 : utf16 "⚖️" = [0x2696, 0xFE0F] := by decide
    rw [h0]
    simp only [List.cons_append, List.nil_append]
    rw [nowhere_cons]
    constructor
    · cases he : disclaimerHead.pat.exec (0x2696 :: 0xFE0F :: (ws ++ L)) with
      | none => rfl
      | some rest =>
        obtain ⟨s1, hs1, hrun⟩ := exec_pat.mp he
        have hl : disclaimerHead.lead = [0x2696, 0xFE0F] := by decide
        rw [hl] at hs1
        simp only [List.cons_append, List.nil_append, List.cons.injEq, true_and] at hs1
        have hnone := plus_lit_none (utf16 "Disclaimer:") 0x44 (by decide) (ws ++ L) (by
          simp only [List.mem_append, not_or]
          exact ⟨hsD, hD⟩)
        rw [← hs1] at hrun
        have ht : disclaimerHead.tail = .cat (.plus .space) (.lit (utf16 "Disclaimer:")) := rfl
        rw [ht, hnone] at hrun
        cases hrun
    · refine @nowhere_of_absent disclaimerHead 0x2696 (by decide) _ ?_
      simp only [List.mem_cons, List.mem_append, not_or]
      exact ⟨by decide, hsp, hL⟩

/-- A header alone, with any whitespace between emoji and label, is returned
wrapped by its rule. -/
theorem header_alone (h : Rule) (re : Re) (L pre post : List Nat) (hmem : h ∈ headers)
    (htail : h.tail = .cat (.plus .space) re) (hre : re.run some L = some [])
    (hrepl : h.repl = .wrap pre post)
    (hplain : ∀ u ∈ h.lead ++ L, isSpecial u = false ∧ u ≠ 0x2500)
    (hLsp : isSpace (L.headD 0x20) = false)
    (hL : 0x2696 ∉ L) (hd : 0x2696 ∉ h.lead ∨ (h.lead = utf16 "⚖️" ∧ 0x44 ∉ L))
    (ws : List Nat) (hne : ws ≠ []) (hws : ∀ c ∈ ws, isSpace c = true) :
    formatResponse (h.lead ++ ws ++ L) = pre ++ (h.lead ++ ws ++ L) ++ post := by
  have hspecial : ∀ u ∈ h.lead ++ ws ++ L, isSpecial u = false := by
    intro u hu
    simp only [List.mem_append] at hu
    rcases hu with (hu | hu) | hu
    · exact (hplain u (List.mem_append_left _ hu)).1
    · exact space_not_special (hws u hu)
    · exact (hplain u (List.mem_append_right _ hu)).1
  have hsep : (0x2500 : Nat) ∉ h.lead ++ ws ++ L := by
    intro hu
    simp only [List.mem_append] at hu
    rcases hu with (hu | hu) | hu
    · exact (hplain _ (List.mem_append_left _ hu)).2 rfl
    · have := hws _ hu
      simp [isSpace] at this
    · exact (hplain _ (List.mem_append_right _ hu)).2 rfl
  rw [formatResponse_of_nowhere _ (header_no_disclaimer h.lead L hL hd ws hws), escapeStep_eq,
    escapeHtml_plain hspecial,
    replace_nowhere (by decide) (@nowhere_of_absent sepRule 0x2500 (by decide) _ hsep)]
  have hex := header_exec h re L htail hre hLsp ws hne hws
  have hfm : firstMatch nineRules ((h.lead ++ ws ++ L) ++ []) = some (h, []) := by
    rw [List.append_nil]
    exact firstMatch_of_mem nine_compatible (List.mem_append_left _ hmem) hex
  have hled : Led nineRules := fun r hr => (nine_good r hr).1
  have := replaceAny_match hled hfm
  rw [List.append_nil] at this
  show replaceAny nineRules 0 (h.lead ++ ws ++ L) = _
  rw [this, replaceAny_nil hled, hrepl]
  simp [Repl.apply]

/-! ### The formatter: claims -/

/-- Claim C1: for every text, every `&` of `formatResponse(text)` starts one of
`&amp;`, `&lt;`, `&gt;` and every `<` and `>` is part of one of the tags the
formatter writes itself (the output is a sequence of other units, of the three
character references and of those tags, each tag of the shape `<hr ...>`,
`<strong ...>`, `</strong>`, `<span ...>` or `</span>`); and when none of the
separator, header, severity and disclaimer patterns matches anywhere in the
text, the output is the text after the three escaping replacements, which
turn each `&`, `<`, `>` into its character reference and leave the rest. -/
theorem formatResponse_no_raw_markup (text : JSString) :
    NoRawMarkup (formatResponse text) ∧ Safe (formatResponse text) ∧
    (∀ t ∈ fixedTags, tagShape t = true) ∧
    (noMatch markupRules text = true →
      formatResponse text = gtRule.replace (ltRule.replace (ampRule.replace text)) ∧
      formatResponse text = escapeHtml text) :=
  ⟨(safe_formatResponse text).noRawMarkup, safe_formatResponse text, fixedTags_shape,
    fun h => ⟨(formatResponse_plain text h).trans (escapeStep_eq text).symm,
      formatResponse_plain text h⟩⟩

set_option maxRecDepth 100000 in
theorem formatResponse_no_raw_markup_witness :
    noMatch markupRules (utf16 "a<b & c>d") = true ∧
    formatResponse (utf16 "a<b & c>d") = utf16 "a&lt;b &amp; c&gt;d" :=
  ⟨by decide,
    ((formatResponse_no_raw_markup (utf16 "a<b & c>d")).2.2.2 (by decide)).2.trans (by decide)⟩

set_option maxRecDepth 100000 in
/-- Claim C7, as stated, fails: on a disclaimer line that ends in the red
circle with `HIGH SEVERITY` on the next line, running the disclaimer
substitution before the header and severity substitutions gives another
output than `formatResponse`, whose severity step joins the two lines before
the disclaimer step wraps the line. -/
theorem disclaimer_order_counterexample :
    (disclaimerRule :: (headers ++ severities)).Perm (headers ++ severities ++ [disclaimerRule]) ∧
    formatResponse disclaimerThenBadge =
      applyRules (headers ++ severities ++ [disclaimerRule])
        (sepRule.replace (escapeStep disclaimerThenBadge)) ∧
    formatResponse disclaimerThenBadge =
      disclaimerOpen ++ utf16 "⚖️ Disclaimer: " ++ (badgeOpens.get ⟨0, by decide⟩) ++
        utf16 "🔴 HIGH" ++ spanClose ++ spanClose ∧
    applyRules (disclaimerRule :: (headers ++ severities))
        (sepRule.replace (escapeStep disclaimerThenBadge)) =
      disclaimerOpen ++ utf16 "⚖️ Disclaimer: 🔴" ++ spanClose ++ utf16 "\nHIGH SEVERITY" ∧
    applyRules (disclaimerRule :: (headers ++ severities))
        (sepRule.replace (escapeStep disclaimerThenBadge)) ≠
      formatResponse disclaimerThenBadge :=
  ⟨@List.perm_append_comm Rule [disclaimerRule] (headers ++ severities), by decide, by decide, by decide, by decide⟩

/-- Claim C7, amended: for every text, after escaping and separator
replacement, the six header and the three severity substitutions applied in
any order among themselves, followed by the disclaimer substitution, give the
output of `formatResponse`. -/
theorem header_severity_order (text : JSString) (rs : List Rule)
    (hp : rs.Perm (headers ++ severities)) :
    disclaimerRule.replace (applyRules rs (sepRule.replace (escapeStep text))) =
      formatResponse text := by
  rw [applyRules_perm nine_compatible nine_good hp]
  simp only [formatResponse, nineRules, applyRules_append_list]

theorem header_severity_order_witness :
    disclaimerRule.replace
        (applyRules (severities ++ headers.reverse) (sepRule.replace (escapeStep disclaimerThenBadge))) =
      formatResponse disclaimerThenBadge :=
  header_severity_order disclaimerThenBadge (severities ++ headers.reverse)
    (List.perm_append_comm.trans (List.Perm.append_right _ (List.reverse_perm _)))

set_option maxRecDepth 100000 in
/-- Claim C8, as stated, fails: in the text with a disclaimer in front of the
clipboard emoji, a line break and `SITUATION UNDERSTOOD`, the first header
pattern matches from the emoji to the end of the label, and the output of
`formatResponse` has the closing tag of the disclaimer between the emoji and
the line break: the `strong` element with the matched text unchanged is no
part of the output. -/
theorem header_split_counterexample :
    disclaimerThenHeader = utf16 "⚖️ Disclaimer: " ++ utf16 "📋\nSITUATION UNDERSTOOD" ∧
    firstMatch headers (utf16 "📋\nSITUATION UNDERSTOOD") =
      some (headerRule "📋" (.lit (utf16 "SITUATION UNDERSTOOD")) "#c9a84c", []) ∧
    formatResponse disclaimerThenHeader =
      disclaimerOpen ++ utf16 "⚖️ Disclaimer: " ++ strongOpen "#c9a84c" ++ utf16 "📋" ++
        spanClose ++ utf16 "\nSITUATION UNDERSTOOD" ++ strongClose ∧
    ¬ (strongOpen "#c9a84c" ++ utf16 "📋\nSITUATION UNDERSTOOD" ++ strongClose) <:+:
      formatResponse disclaimerThenHeader := by
  refine ⟨by decide, by decide, by decide, by decide⟩

set_option maxRecDepth 100000 in
/-- Claim C8, amended: for every text, the header step of `formatResponse`,
run on the escaped text with its separators replaced, is one pass that
replaces every occurrence of each of the six header patterns by the opening
`strong` tag in that header's colour, the matched text unchanged and
`</strong>`; the severity step leaves these elements as they are (header and
severity steps together are one such pass), and the disclaimer step runs on
the result.  When the disclaimer pattern matches nowhere in the text, the
output of `formatResponse` is the result of that pass.  A header alone, that
is its emoji, one or more whitespace characters of any kind and its label, is
returned wrapped in the element of its colour.  The header `SITUATION
UNDERSTOOD` with its clipboard emoji, a newline and `OK` give that header
wrapped in the `#c9a84c` element, the newline and `OK`. -/
theorem formatResponse_headers :
    (∀ text : JSString,
      applyRules headers (sepRule.replace (escapeStep text)) =
          replaceAny headers 0 (sepRule.replace (escapeStep text)) ∧
      applyRules severities (applyRules headers (sepRule.replace (escapeStep text))) =
          replaceAny (headers ++ severities) 0 (sepRule.replace (escapeStep text)) ∧
      formatResponse text =
        disclaimerRule.replace
          (replaceAny (headers ++ severities) 0 (sepRule.replace (escapeStep text)))) ∧
    (∀ text : JSString, noMatch [disclaimerRule] text = true →
      formatResponse text =
        replaceAny (headers ++ severities) 0 (sepRule.replace (escapeStep text))) ∧
    (∀ row ∈ headerForms, ∀ ws : List Nat, ws ≠ [] → (∀ c ∈ ws, isSpace c = true) →
      formatResponse (utf16 row.1 ++ ws ++ utf16 row.2.1) =
        strongOpen row.2.2 ++ (utf16 row.1 ++ ws ++ utf16 row.2.1) ++ strongClose) ∧
    headers.map (fun r => (r.lead, r.repl)) =
      [ (utf16 "📋", .wrap (strongOpen "#c9a84c") strongClose),
        (utf16 "⚖️", .wrap (strongOpen "#8b949e") strongClose),
        (utf16 "💡", .wrap (strongOpen "#58a6ff") strongClose),
        (utf16 "✅", .wrap (strongOpen "#3fb950") strongClose),
        (utf16 "📖", .wrap (strongOpen "#d2a8ff") strongClose),
        (utf16 "🏛️", .wrap (strongOpen "#ffa657") strongClose) ] ∧
    (∀ color m, (Repl.wrap (strongOpen color) strongClose).apply m =
      utf16 "<strong style=\"color:" ++ utf16 color ++
        utf16 ";font-size:12.5px;letter-spacing:0.5px;\">" ++ m ++ utf16 "</strong>") ∧
    formatResponse (utf16 "📋 SITUATION UNDERSTOOD\nOK") =
      utf16 "<strong style=\"color:#c9a84c;font-size:12.5px;letter-spacing:0.5px;\">📋 SITUATION UNDERSTOOD</strong>\nOK" := by
  refine ⟨fun text => ⟨headers_one_pass _, ?_, ?_⟩,
    fun text h => formatResponse_of_nowhere text (nowhere_of_noMatch h), ?_, by decide,
    fun color m => by simp [Repl.apply, strongOpen, strongClose], by decide⟩
  · rw [← applyRules_append_list]
    exact applyRules_eq_replaceAny nineRules nine_compatible nine_good _
  · simp only [formatResponse]
    rw [← applyRules_append_list]
    exact congrArg _ (applyRules_eq_replaceAny nineRules nine_compatible nine_good _)
  · intro row hrow ws hne hws
    simp only [headerForms, List.mem_cons, List.mem_singleton, List.not_mem_nil, or_false] at hrow
    rcases hrow with rfl | rfl | rfl | rfl | rfl | rfl | rfl | rfl
    · exact header_alone (headerRule "📋" (.lit (utf16 "SITUATION UNDERSTOOD")) "#c9a84c") _ _ _ _
        (by decide) rfl (by decide) rfl (by decide) (by decide) (by decide)
        (Or.inl (by decide)) ws hne hws
    · exact header_alone (headerRule "⚖️" (.lit (utf16 "APPLICABLE LAW")) "#8b949e") _ _ _ _
        (by decide) rfl (by decide) rfl (by decide) (by decide) (by decide)
        (Or.inr ⟨rfl, by decide⟩) ws hne hws
    · exact header_alone (headerRule "💡" (.cat (.lit (utf16 "WHAT THIS MEANS"))
          (.opt (.lit (utf16 " FOR YOU")))) "#58a6ff") _ _ _ _
        (by decide) rfl (by decide) rfl (by decide) (by decide) (by decide)
        (Or.inl (by decide)) ws hne hws
    · exact header_alone (headerRule "💡" (.cat (.lit (utf16 "WHAT THIS MEANS"))
          (.opt (.lit (utf16 " FOR YOU")))) "#58a6ff") _ _ _ _
        (by decide) rfl (by decide) rfl (by decide) (by decide) (by decide)
        (Or.inl (by decide)) ws hne hws
    · exact header_alone (headerRule "✅" (.lit (utf16 "YOUR NEXT STEPS")) "#3fb950") _ _ _ _
        (by decide) rfl (by decide) rfl (by decide) (by decide) (by decide)
        (Or.inl (by decide)) ws hne hws
    · exact header_alone (headerRule "📖" (.lit (utf16 "LEGAL DETAILS")) "#d2a8ff") _ _ _ _
        (by decide) rfl (by decide) rfl (by decide) (by decide) (by decide)
        (Or.inl (by decide)) ws hne hws
    · exact header_alone (headerRule "🏛️" (.cat (.lit (utf16 "WHERE TO "))
          (.alt (.lit (utf16 "FILE COMPLAINT")) (.lit (utf16 "COMPLAIN")))) "#ffa657") _ _ _ _
        (by decide) rfl (by decide) rfl (by decide) (by decide) (by decide)
        (Or.inl (by decide)) ws hne hws
    · exact header_alone (headerRule "🏛️" (.cat (.lit (utf16 "WHERE TO "))
          (.alt (.lit (utf16 "FILE COMPLAINT")) (.lit (utf16 "COMPLAIN")))) "#ffa657") _ _ _ _
        (by decide) rfl (by decide) rfl (by decide) (by decide) (by decide)
        (Or.inl (by decide)) ws hne hws

set_option maxRecDepth 100000 in
theorem formatResponse_headers_witness :
    formatResponse (utf16 "⚖️" ++ utf16 "\n\t " ++ utf16 "APPLICABLE LAW") =
      strongOpen "#8b949e" ++ (utf16 "⚖️" ++ utf16 "\n\t " ++ utf16 "APPLICABLE LAW") ++
        strongClose ∧
    formatResponse (utf16 "🔴 HIGH SEVERITY\n🏛️  WHERE TO COMPLAIN & more") =
      utf16 "<span style=\"color:#f85149;font-weight:600;background:rgba(248,81,73,0.1);padding:2px 8px;border-radius:12px;\">🔴 HIGH</span>\n<strong style=\"color:#ffa657;font-size:12.5px;letter-spacing:0.5px;\">🏛️  WHERE TO COMPLAIN</strong> &amp; more" :=
  ⟨formatResponse_headers.2.2.1 ("⚖️", "APPLICABLE LAW", "#8b949e") (by decide)
      (utf16 "\n\t ") (by decide) (by decide),
    (formatResponse_headers.2.1 (utf16 "🔴 HIGH SEVERITY\n🏛️  WHERE TO COMPLAIN & more")
      (by decide)).trans (by decide)⟩

/-! ### The send flow and the overlay: claims -/

theorem trim_blank {v : JSString} (h : ∀ c ∈ v, isSpace c = true) : trim v = [] := by
  have : v.dropWhile isSpace = [] := List.dropWhile_eq_nil_iff.mpr h
  simp [trim, this]

theorem trim_eq_nil {v : JSString} : trim v = [] ↔ ∀ c ∈ v, isSpace c = true := by
  constructor
  · intro h
    simp only [trim, List.reverse_eq_nil_iff, List.dropWhile_eq_nil_iff, List.mem_reverse] at h
    cases hd : v.dropWhile isSpace with
    | nil => exact List.dropWhile_eq_nil_iff.mp hd
    | cons x xs =>
      have hx : isSpace x = true := h x (by rw [hd]; exact List.mem_cons_self _ _)
      have hne : v.dropWhile isSpace ≠ [] := by rw [hd]; exact List.cons_ne_nil _ _
      have := List.head_dropWhile_not isSpace v hne
      simp only [hd, List.head_cons] at this
      rw [hx] at this
      cases this
  · exact trim_blank

theorem normalizeFrom_blank (b : Bool) (v : JSString) :
    (∀ c ∈ normalizeFrom b v, isSpace c = true) ↔ ∀ c ∈ v, isSpace c = true := by
  induction v generalizing b with
  | nil => simp [normalizeFrom]
  | cons x xs ih =>
    simp only [normalizeFrom]
    by_cases hx : x = 0x0D
    · subst hx
      simp only [if_true, List.forall_mem_cons, ih]
      exact ⟨fun h => ⟨by decide, h.2⟩, fun h => ⟨by decide, h.2⟩⟩
    · simp only [hx, if_false]
      by_cases hc : x = 0x0A ∧ b = true
      · simp only [hc, and_self, if_true, ih, List.forall_mem_cons]
        exact ⟨fun h => ⟨by decide, h⟩, fun h => h.2⟩
      · simp only [hc, if_false, List.forall_mem_cons, ih]

theorem trim_normalize_blank (text : JSString) :
    trim (normalizeNewlines text) = [] ↔ ∀ c ∈ text, isSpace c = true := by
  rw [trim_eq_nil, normalizeNewlines, normalizeFrom_blank]

theorem sendMessage_of_trim {s : State} (h : trim s.input ≠ []) :
    sendMessage s =
      { s with input := [], charCount := utf16 "0 / 500", sendDisabled := true,
               transcript := s.transcript ++
                 [.message .user (messageContent (trim s.input) .user), .typing],
               inflight := s.inflight ++ [trim s.input] } := by
  simp [sendMessage, h, appendMessage, showTyping]

/-- A submission on a transcript without placeholder, once its request has an
outcome and nothing else happened in between: the user entry and one bot
entry are added, and the control is enabled. -/
theorem settle_sendMessage (s : State) (reply : Reply) (h : trim s.input ≠ [])
    (hq : Entry.typing ∉ s.transcript) :
    (settle reply (sendMessage s)).transcript =
      s.transcript ++ [.message .user (messageContent (trim s.input) .user),
        .message .bot (messageContent (match reply with
          | .text r => r
          | _ => fallbackText) .bot)] ∧
    (settle reply (sendMessage s)).sendDisabled = false := by
  rw [sendMessage_of_trim h]
  have he : (s.transcript ++ [Entry.message .user (messageContent (trim s.input) .user),
      Entry.typing]).erase Entry.typing =
      s.transcript ++ [Entry.message .user (messageContent (trim s.input) .user)] := by
    rw [List.erase_append_right _ hq]
    simp [List.erase_cons]
  have hn : Entry.typing ∉
      s.transcript ++ [Entry.message .user (messageContent (trim s.input) .user)] := by
    simp [hq]
  cases reply <;>
    simp [settle, tryBlock, removeTyping, appendMessage, he, List.erase_of_not_mem hn]

set_option maxRecDepth 100000 in
/-- Claim C2: the user branch of `appendMessage` replaces `<` and `>` only.  For
the typed text `&lt;b&gt; & <i>` the paragraph keeps every `&` of the text as
it is, where the escaping of `formatResponse` writes `&amp;`. -/
theorem userText_keeps_ampersand :
    userText (utf16 "&lt;b&gt; & <i>") = utf16 "&lt;b&gt; & &lt;i&gt;" ∧
    messageContent (utf16 "&lt;b&gt; & <i>") .user =
      utf16 "<p style=\"margin:0;\">&lt;b&gt; & &lt;i&gt;</p>" ∧
    escapeStep (utf16 "&lt;b&gt; & <i>") = utf16 "&amp;lt;b&amp;gt; &amp; &lt;i&gt;" ∧
    userText (utf16 "&lt;b&gt;") = userText (utf16 "<b>") := by
  decide

set_option maxRecDepth 100000 in
/-- Claim C3: the `keydown` listener calls `sendMessage` whatever the state of
the send button.  After two messages sent with Enter the button is disabled
since the first, and two requests are in flight. -/
theorem two_requests_in_flight :
    (runEvents State.init (twoEnters.take 2)).sendDisabled = true ∧
    (runEvents State.init (twoEnters.take 2)).inflight = [utf16 "a"] ∧
    (runEvents State.init twoEnters).inflight = [utf16 "a", utf16 "b"] ∧
    (runEvents State.init twoEnters).inflight.length = 2 := by
  decide

set_option maxRecDepth 100000 in
/-- Claim C4: after two messages sent with Enter, the outcome of the first
request enables the send button while the second request is still in
flight. -/
theorem enabled_while_in_flight :
    (runEvents State.init twoEnters).sendDisabled = true ∧
    (runEvents State.init (twoEnters ++ [.resolve 0 (.text (utf16 "x"))])).sendDisabled = false ∧
    (runEvents State.init (twoEnters ++ [.resolve 0 (.text (utf16 "x"))])).inflight =
      [utf16 "b"] := by
  decide

set_option maxRecDepth 100000 in
/-- Claim C5: after two messages sent with Enter, the outcome of the first
request leaves a typing placeholder in the transcript and the bot entry does
not follow its user entry; after the failure of the second request the
transcript holds the two user entries, then the two bot entries. -/
theorem transcript_two_requests :
    (runEvents State.init (twoEnters.take 2)).transcript =
      [.message .user (utf16 "<p style=\"margin:0;\">a</p>"), .typing] ∧
    (runEvents State.init (twoEnters ++ [.resolve 0 (.text (utf16 "x"))])).transcript =
      [.message .user (utf16 "<p style=\"margin:0;\">a</p>"),
       .message .user (utf16 "<p style=\"margin:0;\">b</p>"),
       .typing,
       .message .bot (messageContent (utf16 "x") .bot)] ∧
    (runEvents State.init
        (twoEnters ++ [.resolve 0 (.text (utf16 "x")), .resolve 0 .networkError])).transcript =
      [.message .user (utf16 "<p style=\"margin:0;\">a</p>"),
       .message .user (utf16 "<p style=\"margin:0;\">b</p>"),
       .message .bot (messageContent (utf16 "x") .bot),
       .message .bot (messageContent fallbackText .bot)] := by
  decide

/-- Claim C6: when the input buffer is empty or holds whitespace only,
`sendMessage` leaves the whole state as it is: no request is issued, no entry
is added to the transcript, and the buffer, the counter and the state of the
send button are the same; the Enter key then changes nothing either. -/
theorem sendMessage_blank (s : State) (h : ∀ c ∈ s.input, isSpace c = true) :
    sendMessage s = s ∧ inputKeydown .enter false s = s := by
  have h1 : sendMessage s = s := by simp [sendMessage, trim_blank h]
  exact ⟨h1, by simp [inputKeydown, h1]⟩

theorem sendMessage_blank_witness :
    sendMessage { State.init with input := utf16 " \t\n" } =
      { State.init with input := utf16 " \t\n" } :=
  (sendMessage_blank { State.init with input := utf16 " \t\n" } (by decide)).1

set_option maxRecDepth 100000 in
/-- Claim C9, as stated, fails: `sendQuick` with a text of blanks, then its
timer, show the chat page but add no transcript entry and issue no request;
for a text with blanks around it the request carries the trimmed text, and
for a text with CR LF inside the request carries it with LF. -/
theorem sendQuick_blank_counterexample :
    (runEvents State.init [.quick (utf16 "  "), .timer 0]).activePage = utf16 "chat" ∧
    (runEvents State.init [.quick (utf16 "  "), .timer 0]).transcript = [] ∧
    (runEvents State.init [.quick (utf16 "  "), .timer 0]).inflight = [] ∧
    (runEvents State.init [.quick (utf16 " hi "), .timer 0]).inflight = [utf16 "hi"] ∧
    (runEvents State.init [.quick (utf16 "a\r\nb"), .timer 0]).inflight = [utf16 "a\nb"] := by
  decide

/-- Claim C9, amended: for every text and every state, `sendQuick(text)`
followed by its timer leaves the chat page active and no timer of its own
pending, and the input field reads the text with its line breaks normalised
(CR LF and CR as LF).  That value trimmed is empty exactly when the text is
empty or whitespace only.  When it is not empty, it is submitted: the
transcript grows by the user entry carrying the trimmed value and by the
typing placeholder, one request carrying the trimmed value is issued, the
field is cleared and the button disabled.  When it is empty, nothing is
submitted: transcript, requests, counter and button are as before. -/
theorem sendQuick_submits (text : JSString) (s : State) :
    (runEvents s [.quick text, .timer s.timers.length]).activePage = utf16 "chat" ∧
    (runEvents s [.quick text, .timer s.timers.length]).timers = s.timers ∧
    (trim (normalizeNewlines text) = [] ↔ ∀ c ∈ text, isSpace c = true) ∧
    (trim (normalizeNewlines text) ≠ [] →
      (runEvents s [.quick text, .timer s.timers.length]).transcript =
        s.transcript ++
          [.message .user (messageContent (trim (normalizeNewlines text)) .user), .typing] ∧
      (runEvents s [.quick text, .timer s.timers.length]).inflight =
        s.inflight ++ [trim (normalizeNewlines text)] ∧
      (runEvents s [.quick text, .timer s.timers.length]).input = [] ∧
      (runEvents s [.quick text, .timer s.timers.length]).sendDisabled = true) ∧
    (trim (normalizeNewlines text) = [] →
      (runEvents s [.quick text, .timer s.timers.length]).transcript = s.transcript ∧
      (runEvents s [.quick text, .timer s.timers.length]).inflight = s.inflight ∧
      (runEvents s [.quick text, .timer s.timers.length]).input = normalizeNewlines text ∧
      (runEvents s [.quick text, .timer s.timers.length]).charCount = s.charCount ∧
      (runEvents s [.quick text, .timer s.timers.length]).sendDisabled = s.sendDisabled) := by
  have hget : (s.timers ++ [text]).get? s.timers.length = some text := by
    simp
  have her : (s.timers ++ [text]).eraseIdx s.timers.length = s.timers := by
    rw [List.eraseIdx_append_of_length_le (Nat.le_refl _)]
    simp
  have hrun : runEvents s [.quick text, .timer s.timers.length] =
      sendMessage { s with activePage := utf16 "chat", input := normalizeNewlines text } := by
    simp only [runEvents, List.foldl_cons, List.foldl_nil, step, sendQuick, showPage, hget, her,
      quickCallback]
  rw [hrun]
  by_cases h : trim (normalizeNewlines text) = []
  · have hs : sendMessage { s with activePage := utf16 "chat", input := normalizeNewlines text } =
        { s with activePage := utf16 "chat", input := normalizeNewlines text } := by
      simp [sendMessage, h]
    rw [hs]
    exact ⟨rfl, rfl, trim_normalize_blank text, fun hne => absurd h hne,
      fun _ => ⟨rfl, rfl, rfl, rfl, rfl⟩⟩
  · rw [sendMessage_of_trim (by simpa using h)]
    exact ⟨rfl, rfl, trim_normalize_blank text, fun _ => ⟨rfl, rfl, rfl, rfl⟩,
      fun he => absurd he h⟩

set_option maxRecDepth 100000 in
theorem sendQuick_submits_witness :
    (runEvents State.init [.quick (utf16 " a\r\nb "), .timer 0]).transcript =
      [.message .user (messageContent (utf16 "a\nb") .user), .typing] ∧
    (runEvents State.init [.quick (utf16 " a\r\nb "), .timer 0]).inflight = [utf16 "a\nb"] ∧
    (runEvents State.init [.quick (utf16 " \r\n"), .timer 0]).transcript = [] ∧
    (runEvents State.init [.quick (utf16 " \r\n"), .timer 0]).inflight = [] :=
  ⟨((sendQuick_submits (utf16 " a\r\nb ") State.init).2.2.2.1 (by decide)).1.trans (by decide),
    ((sendQuick_submits (utf16 " a\r\nb ") State.init).2.2.2.1 (by decide)).2.1.trans (by decide),
    ((sendQuick_submits (utf16 " \r\n") State.init).2.2.2.2 (by decide)).1,
    ((sendQuick_submits (utf16 " \r\n") State.init).2.2.2.2 (by decide)).2.1⟩

/-- Claim C10: `closeLogoOverlay` with an event whose target is not the
backdrop leaves the state as it is; with the backdrop as target, or with no
event (as from the Escape key), the overlay is not open and the body overflow
is reset afterwards.  So an open overlay is closed exactly when there is no
event or the target is the backdrop. -/
theorem closeLogoOverlay_spec (s : State) :
    (∀ target, target ≠ Node.logoOverlay → closeLogoOverlay (some target) s = s) ∧
    closeLogoOverlay (some .logoOverlay) s = { s with overlayOpen := false, bodyOverflow := [] } ∧
    closeLogoOverlay none s = { s with overlayOpen := false, bodyOverflow := [] } ∧
    (∀ shift, step s (.keydown .escape shift) =
      { s with overlayOpen := false, bodyOverflow := [] }) ∧
    (s.overlayOpen = true → ∀ e, ((closeLogoOverlay e s).overlayOpen = false ↔
      (e = none ∨ e = some .logoOverlay))) := by
  refine ⟨fun target ht => by simp [closeLogoOverlay, ht], by simp [closeLogoOverlay],
    by simp [closeLogoOverlay], fun shift => ?_, fun ho e => ?_⟩
  · simp [step, documentKeydown, inputKeydown, closeLogoOverlay]
  · cases e with
    | none => simp [closeLogoOverlay]
    | some t =>
      cases t with
      | logoOverlay => simp [closeLogoOverlay]
      | other n => simp [closeLogoOverlay, ho]

theorem closeLogoOverlay_spec_witness :
    closeLogoOverlay (some (.other 0)) (openLogoOverlay State.init) = openLogoOverlay State.init ∧
    ((closeLogoOverlay (some .logoOverlay) (openLogoOverlay State.init)).overlayOpen = false ↔
      ((some Node.logoOverlay : Option Node) = none ∨ some Node.logoOverlay = some .logoOverlay)) :=
  ⟨(closeLogoOverlay_spec (openLogoOverlay State.init)).1 (.other 0) (by decide),
    (closeLogoOverlay_spec (openLogoOverlay State.init)).2.2.2.2 rfl (some .logoOverlay)⟩

end Chat
